import Mathlib

/-!
Verification development for `conda_build/metadata.py`.

Python strings are modelled as `List Char`; Python dictionaries as
association lists (insertion ordered, as Python dicts are); fallible code
returns `Option`/`Except`.  Filesystem contents, where a function reads
files, are passed as explicit arguments.  Python's builtin `eval` (used by
`eval_selector`) is external to the repository; it is modelled here as a
tokenizer + recursive-descent reading + short-circuit evaluator for the
boolean selector fragment (names, `True`/`False`, integer literals,
`not`/`and`/`or`), the fragment the selector language uses; any other
input is a `SyntaxError`, and the first undefined name reached in
evaluation order raises a `NameError` carrying that name, exactly as
CPython behaves on this fragment.
-/

namespace CondaBuild

/-- Python identifier characters (ASCII letters, digits, underscore). -/
def identc (c : Char) : Bool := c.isAlpha || c.isDigit || c = '_'

/-- The five characters of the literal `"False"` substituted by
`eval_selector`'s degrade-to-false retry. -/
def FALSE : List Char := ['F', 'a', 'l', 's', 'e']

theorem FALSE_ident : ∀ c ∈ FALSE, identc c = true := by decide

theorem FALSE_length : FALSE.length = 5 := rfl

/-- Python `str.replace(pat, rep)` on list-strings: replace all
occurrences of `pat` left to right, non-overlapping.  (`eval_selector`
only ever calls it with a non-empty pattern — the offending name parsed
out of a `NameError` — so the empty-pattern case is immaterial; we let it
leave the string unchanged.) -/
def replaceL (s pat rep : List Char) : List Char :=
  match s with
  | [] => []
  | c :: cs =>
    if pat ≠ [] ∧ pat.isPrefixOf (c :: cs) then
      rep ++ replaceL ((c :: cs).drop pat.length) pat rep
    else
      c :: replaceL cs pat rep
termination_by s.length
decreasing_by
  · rename_i h
    have hp : 0 < pat.length := List.length_pos.mpr h.1
    simp only [List.length_drop, List.length_cons]
    omega
  · simp

/-- Number of (greedy, non-overlapping) occurrences of `pat` that
`replaceL` rewrites. -/
def occCount (s pat : List Char) : Nat :=
  match s with
  | [] => 0
  | c :: cs =>
    if pat ≠ [] ∧ pat.isPrefixOf (c :: cs) then
      1 + occCount ((c :: cs).drop pat.length) pat
    else
      occCount cs pat
termination_by s.length
decreasing_by
  · rename_i h
    have hp : 0 < pat.length := List.length_pos.mpr h.1
    simp only [List.length_drop, List.length_cons]
    omega
  · simp

theorem replaceL_nil (pat rep : List Char) : replaceL [] pat rep = [] := by
  simp [replaceL]

theorem occCount_nil (pat : List Char) : occCount [] pat = 0 := by
  simp [occCount]

/-- Unfolding equation, prefix case. -/
theorem replaceL_cons_pos (c : Char) (cs pat rep : List Char)
    (h : pat ≠ [] ∧ pat.isPrefixOf (c :: cs)) :
    replaceL (c :: cs) pat rep = rep ++ replaceL ((c :: cs).drop pat.length) pat rep := by
  rw [replaceL]; simp [h]

/-- Unfolding equation, non-prefix case. -/
theorem replaceL_cons_neg (c : Char) (cs pat rep : List Char)
    (h : ¬(pat ≠ [] ∧ pat.isPrefixOf (c :: cs))) :
    replaceL (c :: cs) pat rep = c :: replaceL cs pat rep := by
  rw [replaceL]; simp only [h, if_false]

theorem occCount_cons_pos (c : Char) (cs pat : List Char)
    (h : pat ≠ [] ∧ pat.isPrefixOf (c :: cs)) :
    occCount (c :: cs) pat = 1 + occCount ((c :: cs).drop pat.length) pat := by
  rw [occCount]; simp [h]

theorem occCount_cons_neg (c : Char) (cs pat : List Char)
    (h : ¬(pat ≠ [] ∧ pat.isPrefixOf (c :: cs))) :
    occCount (c :: cs) pat = occCount cs pat := by
  rw [occCount]; simp only [h, if_false]

/-- Length accounting for `replaceL`:
`|replace s| + k·|pat| = |s| + k·|rep|` where `k` is the occurrence count. -/
theorem replaceL_length (s pat rep : List Char) :
    (replaceL s pat rep).length + occCount s pat * pat.length
      = s.length + occCount s pat * rep.length := by
  induction s, pat, rep using replaceL.induct with
  | case1 => simp [replaceL, occCount]
  | case2 pat rep c cs h ih =>
    rw [replaceL_cons_pos c cs pat rep h, occCount_cons_pos c cs pat h]
    have hlen : pat.length ≤ (c :: cs).length :=
      (List.isPrefixOf_iff_prefix.mp h.2).length_le
    simp only [List.length_append, List.length_drop] at ih ⊢
    have e1 : (1 + occCount ((c :: cs).drop pat.length) pat) * pat.length
        = pat.length + occCount ((c :: cs).drop pat.length) pat * pat.length := by ring
    have e2 : (1 + occCount ((c :: cs).drop pat.length) pat) * rep.length
        = rep.length + occCount ((c :: cs).drop pat.length) pat * rep.length := by ring
    omega
  | case3 pat rep c cs h ih =>
    rw [replaceL_cons_neg c cs pat rep h, occCount_cons_neg c cs pat h]
    simp only [List.length_cons]
    omega

/-- The occurrences cover at most the whole string. -/
theorem occCount_mul_le (s pat : List Char) :
    occCount s pat * pat.length ≤ s.length := by
  induction s, pat using occCount.induct with
  | case1 => simp [occCount]
  | case2 pat c cs h ih =>
    rw [occCount_cons_pos c cs pat h]
    have hlen : pat.length ≤ (c :: cs).length :=
      (List.isPrefixOf_iff_prefix.mp h.2).length_le
    simp only [List.length_drop] at ih
    have e1 : (1 + occCount ((c :: cs).drop pat.length) pat) * pat.length
        = pat.length + occCount ((c :: cs).drop pat.length) pat * pat.length := by ring
    omega
  | case3 pat c cs h ih =>
    rw [occCount_cons_neg c cs pat h]
    simp only [List.length_cons]
    omega

/-- No occurrence: `replaceL` is the identity. -/
theorem replaceL_of_occCount_zero (s pat rep : List Char)
    (h : occCount s pat = 0) : replaceL s pat rep = s := by
  induction s, pat, rep using replaceL.induct with
  | case1 => simp [replaceL]
  | case2 pat rep c cs hp ih =>
    rw [occCount_cons_pos c cs pat hp] at h
    omega
  | case3 pat rep c cs hp ih =>
    rw [occCount_cons_neg c cs pat hp] at h
    rw [replaceL_cons_neg c cs pat rep hp, ih h]

theorem occCount_pat_nil (s : List Char) : occCount s [] = 0 := by
  induction s with
  | nil => simp [occCount]
  | cons c cs ih => rw [occCount_cons_neg c cs [] (by simp), ih]

/-- `replaceL` returns the empty string only on the empty string (the
replacement text `FALSE` being non-empty). -/
theorem replaceL_eq_nil (s pat rep : List Char) (hrep : rep ≠ [])
    (h : replaceL s pat rep = []) : s = [] := by
  cases s with
  | nil => rfl
  | cons c cs =>
    by_cases hg : pat ≠ [] ∧ pat.isPrefixOf (c :: cs)
    · rw [replaceL_cons_pos c cs pat rep hg] at h
      rcases List.append_eq_nil.mp h with ⟨h1, _⟩
      exact absurd h1 hrep
    · rw [replaceL_cons_neg c cs pat rep hg] at h
      exact absurd h (by simp)

/-- Replacing the pattern by itself-as-a-whole: `replaceL pat pat rep = rep`. -/
theorem replaceL_self (pat rep : List Char) (hpat : pat ≠ []) :
    replaceL pat pat rep = rep := by
  cases pat with
  | nil => exact absurd rfl hpat
  | cons c cs =>
    rw [replaceL_cons_pos c cs (c :: cs) rep ⟨by simp, List.isPrefixOf_iff_prefix.mpr (by simp)⟩]
    simp [replaceL_nil]

theorem occCount_self_pos (pat : List Char) (hpat : pat ≠ []) :
    0 < occCount pat pat := by
  cases pat with
  | nil => exact absurd rfl hpat
  | cons c cs =>
    rw [occCount_cons_pos c cs (c :: cs) ⟨by simp, List.isPrefixOf_iff_prefix.mpr (by simp)⟩]
    omega

/-- Characters of the replaced string come from the source or the
replacement text. -/
theorem mem_replaceL (s pat rep : List Char) (c : Char)
    (h : c ∈ replaceL s pat rep) : c ∈ s ∨ c ∈ rep := by
  induction s, pat, rep using replaceL.induct with
  | case1 => simp [replaceL] at h
  | case2 pat rep b bs hg ih =>
    rw [replaceL_cons_pos b bs pat rep hg] at h
    rcases List.mem_append.mp h with h1 | h2
    · exact Or.inr h1
    · rcases ih h2 with h3 | h4
      · exact Or.inl (List.mem_of_mem_drop h3)
      · exact Or.inr h4
  | case3 pat rep b bs hg ih =>
    rw [replaceL_cons_neg b bs pat rep hg] at h
    rcases List.mem_cons.mp h with h1 | h2
    · exact Or.inl (h1 ▸ List.mem_cons_self b bs)
    · rcases ih h2 with h3 | h4
      · exact Or.inl (List.mem_cons_of_mem b h3)
      · exact Or.inr h4

/-- A character of the source that is not a pattern character survives
the replacement. -/
theorem mem_replaceL_of_not_mem_pat (s pat rep : List Char) (c : Char)
    (hc : c ∈ s) (hnp : c ∉ pat) : c ∈ replaceL s pat rep := by
  induction s, pat, rep using replaceL.induct with
  | case1 => simp at hc
  | case2 pat rep b bs hg ih =>
    rw [replaceL_cons_pos b bs pat rep hg]
    refine List.mem_append.mpr (Or.inr (ih ?_ hnp))
    -- c is in b :: bs but not in the pattern, which is a prefix; so c
    -- survives into the dropped remainder
    have hpre := List.isPrefixOf_iff_prefix.mp hg.2
    obtain ⟨t, ht⟩ := hpre
    have : c ∈ pat ++ t := by rw [ht]; exact hc
    rcases List.mem_append.mp this with h1 | h2
    · exact absurd h1 hnp
    · rw [← ht, List.drop_left]
      exact h2
  | case3 pat rep b bs hg ih =>
    rw [replaceL_cons_neg b bs pat rep hg]
    rcases List.mem_cons.mp hc with h1 | h2
    · exact h1 ▸ List.mem_cons_self b _
    · exact List.mem_cons_of_mem b (ih h2 hnp)

/-- An occurrence of the pattern leaves a copy of the replacement text
in the output. -/
theorem exists_decomp_of_occ_pos (s pat rep : List Char)
    (h : 0 < occCount s pat) :
    ∃ u v, replaceL s pat rep = u ++ rep ++ v := by
  induction s, pat, rep using replaceL.induct with
  | case1 => rw [occCount_nil] at h; omega
  | case2 pat rep b bs hg ih =>
    exact ⟨[], replaceL ((b :: bs).drop pat.length) pat rep,
      by rw [replaceL_cons_pos b bs pat rep hg]; simp⟩
  | case3 pat rep b bs hg ih =>
    rw [occCount_cons_neg b bs pat hg] at h
    obtain ⟨u, v, huv⟩ := ih h
    exact ⟨b :: u, v, by rw [replaceL_cons_neg b bs pat rep hg, huv]; simp⟩

/-- If an occurrence was replaced, the result is at least as long as the
replacement text. -/
theorem replaceL_length_ge (s pat rep : List Char) (h : 0 < occCount s pat) :
    rep.length ≤ (replaceL s pat rep).length := by
  obtain ⟨u, v, huv⟩ := exists_decomp_of_occ_pos s pat rep h
  rw [huv]; simp; omega

/-- The head of the replaced string is the replacement's head or the
source's head. -/
theorem replaceL_head (c : Char) (cs pat rep : List Char) :
    replaceL (c :: cs) pat rep = rep ++ replaceL ((c :: cs).drop pat.length) pat rep
    ∨ replaceL (c :: cs) pat rep = c :: replaceL cs pat rep := by
  by_cases hg : pat ≠ [] ∧ pat.isPrefixOf (c :: cs)
  · exact Or.inl (replaceL_cons_pos c cs pat rep hg)
  · exact Or.inr (replaceL_cons_neg c cs pat rep hg)

/-- Only the pattern itself rewrites to exactly `FALSE`. -/
theorem replaceL_eq_FALSE (r x : List Char)
    (h : replaceL r x FALSE = FALSE) :
    r = x ∨ (occCount r x = 0 ∧ r = FALSE) := by
  by_cases hk : occCount r x = 0
  · exact Or.inr ⟨hk, by rw [replaceL_of_occCount_zero r x FALSE hk] at h; exact h⟩
  · left
    have hx : x ≠ [] := by
      intro hxe
      rw [hxe, occCount_pat_nil] at hk
      exact hk rfl
    have hlen := replaceL_length r x FALSE
    have hble := occCount_mul_le r x
    rw [h, FALSE_length] at hlen
    -- 5 + k·|x| = |r| + k·5 with k ≥ 1 and k·|x| ≤ |r| forces k = 1, |r| = |x|
    have hk1 : occCount r x = 1 := by
      rcases Nat.exists_eq_add_of_lt (Nat.pos_of_ne_zero hk) with ⟨k, hkk⟩
      by_contra hne
      have hk2 : 2 ≤ occCount r x := by omega
      have e1 : 2 * x.length ≤ occCount r x * x.length :=
        Nat.mul_le_mul_right x.length hk2
      have e2 : 2 * 5 ≤ occCount r x * 5 := Nat.mul_le_mul_right 5 hk2
      omega
    rw [hk1] at hlen hble
    have hrx : r.length = x.length := by omega
    -- with exactly one occurrence spanning the whole string, r = x
    cases r with
    | nil => rw [occCount_nil] at hk1; omega
    | cons c cs =>
      by_cases hg : x ≠ [] ∧ x.isPrefixOf (c :: cs)
      · have hpre := List.isPrefixOf_iff_prefix.mp hg.2
        exact (List.prefix_iff_eq_take.mp hpre ▸ by
          rw [List.prefix_iff_eq_take.mp hpre]
          rw [← hrx]
          simp)
      · rw [occCount_cons_neg c cs x hg] at hk1
        have := occCount_mul_le cs x
        rw [hk1] at this
        simp only [List.length_cons] at hrx
        omega

theorem identc_space : identc ' ' = false := by decide

/-- Head of `dropWhile identc` (with a space default) is never an
identifier character. -/
theorem identc_headD_dropWhile (cs : List Char) :
    identc ((cs.dropWhile identc).headD ' ') = false := by
  induction cs with
  | nil => simpa using identc_space
  | cons c cs ih =>
    by_cases hc : identc c
    · rw [List.dropWhile_cons_of_pos hc]; exact ih
    · rw [List.dropWhile_cons_of_neg hc]
      simpa using Bool.of_not_eq_true hc

/-- A pattern of identifier characters cannot straddle a non-identifier
boundary: `replaceL` distributes over such an append. -/
theorem replaceL_append_sep (pat rep : List Char)
    (hpid : ∀ c ∈ pat, identc c = true) (v : List Char)
    (hv : identc (v.headD ' ') = false) :
    ∀ u : List Char, replaceL (u ++ v) pat rep = replaceL u pat rep ++ replaceL v pat rep := by
  have key : ∀ n : Nat, ∀ u : List Char, u.length ≤ n →
      replaceL (u ++ v) pat rep = replaceL u pat rep ++ replaceL v pat rep := by
    intro n
    induction n with
    | zero =>
      intro u hu
      have hue : u = [] := List.length_eq_zero.mp (Nat.le_zero.mp hu)
      simp [hue, replaceL_nil]
    | succ n ih =>
      intro u hu
      cases u with
      | nil => simp [replaceL_nil]
      | cons a us =>
        by_cases hg : pat ≠ [] ∧ pat.isPrefixOf ((a :: us) ++ v)
        · -- the pattern matches at the head; it must lie inside `a :: us`
          have hpl : pat.length ≤ (a :: us).length := by
            by_contra hgt
            push_neg at hgt
            obtain ⟨t, ht⟩ := List.isPrefixOf_iff_prefix.mp hg.2
            have hd : pat.drop (a :: us).length ++ t = v := by
              have h2 := congrArg (List.drop (a :: us).length) ht
              rwa [List.drop_append_of_le_length (le_of_lt hgt), List.drop_left] at h2
            have hne : pat.drop (a :: us).length ≠ [] := by
              intro hnil
              have hlen0 : pat.length - (a :: us).length = 0 := by
                simpa using congrArg List.length hnil
              simp only [List.length_cons] at hlen0 hgt
              omega
            obtain ⟨d, ds, hds⟩ := List.exists_cons_of_ne_nil hne
            have hdmem : d ∈ pat := List.drop_subset _ pat (hds ▸ List.mem_cons_self d ds)
            have hdv : v.headD ' ' = d := by rw [← hd, hds]; rfl
            rw [hdv] at hv
            rw [hpid d hdmem] at hv
            exact Bool.false_ne_true hv.symm
          have hgin : pat ≠ [] ∧ pat.isPrefixOf (a :: us) := by
            refine ⟨hg.1, List.isPrefixOf_iff_prefix.mpr ?_⟩
            have hpre := List.isPrefixOf_iff_prefix.mp hg.2
            rw [List.prefix_iff_eq_take.mp hpre, List.take_append_of_le_length hpl]
            exact List.take_prefix pat.length (a :: us)
          rw [List.cons_append, replaceL_cons_pos _ _ pat rep (List.cons_append a us v ▸ hg),
              replaceL_cons_pos a us pat rep hgin]
          rw [← List.cons_append, List.drop_append_of_le_length hpl]
          have hlen : (List.drop pat.length (a :: us)).length ≤ n := by
            simp only [List.length_drop]
            have hp1 : 0 < pat.length := List.length_pos.mpr hg.1
            simp only [List.length_cons] at hu ⊢
            omega
          rw [ih _ hlen, List.append_assoc]
        · have hgin : ¬(pat ≠ [] ∧ pat.isPrefixOf (a :: us)) := by
            intro hcon
            exact hg ⟨hcon.1, List.isPrefixOf_iff_prefix.mpr
              ((List.isPrefixOf_iff_prefix.mp hcon.2).trans (List.prefix_append (a :: us) v))⟩
          rw [List.cons_append, replaceL_cons_neg _ _ pat rep (by
              intro hcon
              exact hg ⟨hcon.1, by rw [List.cons_append]; exact hcon.2⟩),
            replaceL_cons_neg a us pat rep hgin]
          have hlen : us.length ≤ n := by simp only [List.length_cons] at hu; omega
          rw [ih us hlen]
          rfl
  exact fun u => key u.length u (le_refl _)

/-- Maximal runs of identifier characters of a string (Python tokens of
a selector expression are exactly these runs plus the separators between
them). -/
def runsL : List Char → List (List Char)
  | [] => []
  | c :: cs =>
    if identc c then (c :: cs.takeWhile identc) :: runsL (cs.dropWhile identc)
    else runsL cs
termination_by s => s.length
decreasing_by
  · simp only [List.length_cons]
    have := (List.dropWhile_suffix (l := cs) identc).length_le
    omega
  · simp

theorem runsL_nil : runsL [] = [] := by simp [runsL]

theorem runsL_cons_pos (c : Char) (cs : List Char) (h : identc c = true) :
    runsL (c :: cs) = (c :: cs.takeWhile identc) :: runsL (cs.dropWhile identc) := by
  rw [runsL]; simp [h]

theorem runsL_cons_neg (c : Char) (cs : List Char) (h : ¬identc c = true) :
    runsL (c :: cs) = runsL cs := by
  rw [runsL]; simp [h]

/-- Every run is a non-empty string of identifier characters. -/
theorem mem_runsL (s : List Char) (r : List Char) (hr : r ∈ runsL s) :
    r ≠ [] ∧ ∀ c ∈ r, identc c = true := by
  induction s using runsL.induct with
  | case1 => rw [runsL_nil] at hr; simp at hr
  | case2 c cs h ih =>
    rw [runsL_cons_pos c cs h] at hr
    rcases List.mem_cons.mp hr with h1 | h2
    · subst h1
      refine ⟨by simp, ?_⟩
      intro d hd
      rcases List.mem_cons.mp hd with h3 | h4
      · exact h3 ▸ h
      · exact List.mem_takeWhile_imp h4
    · exact ih h2
  | case3 c cs h ih =>
    rw [runsL_cons_neg c cs h] at hr
    exact ih hr

/-- Prepending a non-empty all-identifier block before a non-identifier
boundary adds exactly one run. -/
theorem runsL_ident_append (w v : List Char) (hw : w ≠ [])
    (hwid : ∀ c ∈ w, identc c = true)
    (hv : identc (v.headD ' ') = false) :
    runsL (w ++ v) = w :: runsL v := by
  cases w with
  | nil => exact absurd rfl hw
  | cons a ws =>
    have ha : identc a = true := hwid a (List.mem_cons_self a ws)
    have hws : ∀ c ∈ ws, identc c = true := fun c hc => hwid c (List.mem_cons_of_mem a hc)
    rw [List.cons_append, runsL_cons_pos a (ws ++ v) ha]
    have htk : (ws ++ v).takeWhile identc = ws := by
      rw [List.takeWhile_append_of_pos hws]
      cases v with
      | nil => simp
      | cons b bs =>
        have hb : identc b = false := by simpa using hv
        rw [List.takeWhile_cons_of_neg (by simp [hb])]
        simp
    have hdr : (ws ++ v).dropWhile identc = v := by
      rw [List.dropWhile_append_of_pos hws]
      cases v with
      | nil => simp
      | cons b bs =>
        have hb : identc b = false := by simpa using hv
        rw [List.dropWhile_cons_of_neg (by simp [hb])]
    rw [htk, hdr]

/-- Replacing an all-identifier pattern by `FALSE` maps each identifier
run of the string through `replaceL` and leaves the separators alone:
the run decomposition commutes with the textual substitution performed
by `eval_selector`'s degrade-to-false retry. -/
theorem runsL_replaceL (x : List Char) (hx : x ≠ [])
    (hxid : ∀ c ∈ x, identc c = true) :
    ∀ s : List Char,
      runsL (replaceL s x FALSE) = (runsL s).map (fun r => replaceL r x FALSE) := by
  have key : ∀ n : Nat, ∀ s : List Char, s.length ≤ n →
      runsL (replaceL s x FALSE) = (runsL s).map (fun r => replaceL r x FALSE) := by
    intro n
    induction n with
    | zero =>
      intro s hs
      have : s = [] := List.length_eq_zero.mp (Nat.le_zero.mp hs)
      simp [this, replaceL_nil, runsL_nil]
    | succ n ih =>
      intro s hs
      cases s with
      | nil => simp [replaceL_nil, runsL_nil]
      | cons c cs =>
        by_cases hc : identc c
        · -- an identifier run starts here
          set w : List Char := c :: cs.takeWhile identc with hw
          set v : List Char := cs.dropWhile identc with hv
          have hsplit : c :: cs = w ++ v := by
            rw [hw, hv, List.cons_append, List.takeWhile_append_dropWhile]
          have hwne : w ≠ [] := by simp [hw]
          have hwid : ∀ d ∈ w, identc d = true := by
            intro d hd
            rcases List.mem_cons.mp hd with h1 | h2
            · exact h1 ▸ hc
            · exact List.mem_takeWhile_imp h2
          have hvhead : identc (v.headD ' ') = false := identc_headD_dropWhile cs
          rw [hsplit, replaceL_append_sep x FALSE hxid v hvhead w]
          -- the image of the run is a non-empty all-identifier block
          have hwrep_ne : replaceL w x FALSE ≠ [] := by
            intro hcon
            exact hwne (replaceL_eq_nil w x FALSE (by simp [FALSE]) hcon)
          have hwrep_id : ∀ d ∈ replaceL w x FALSE, identc d = true := by
            intro d hd
            rcases mem_replaceL w x FALSE d hd with h1 | h2
            · exact hwid d h1
            · exact FALSE_ident d h2
          -- the image of the remainder still starts with a non-identifier
          have hvrep_head : identc ((replaceL v x FALSE).headD ' ') = false := by
            cases hvv : v with
            | nil => simpa [replaceL_nil] using identc_space
            | cons b bs =>
              have hb : identc b = false := by rw [hvv] at hvhead; simpa using hvhead
              have hng : ¬(x ≠ [] ∧ x.isPrefixOf (b :: bs)) := by
                rintro ⟨hx1, hx2⟩
                obtain ⟨t, ht⟩ := List.isPrefixOf_iff_prefix.mp hx2
                cases x with
                | nil => exact hx1 rfl
                | cons e es =>
                  have he : e = b := by
                    have := congrArg (fun l => l.headD ' ') ht
                    simpa using this
                  have : identc e = true := hxid e (List.mem_cons_self e es)
                  rw [he, hb] at this
                  exact Bool.false_ne_true this
              rw [replaceL_cons_neg b bs x FALSE hng]
              simpa using hb
          rw [runsL_ident_append (replaceL w x FALSE) (replaceL v x FALSE)
                hwrep_ne hwrep_id hvrep_head]
          rw [runsL_ident_append w v hwne hwid hvhead]
          have hvlen : v.length ≤ n := by
            have h1 := (List.dropWhile_suffix (l := cs) identc).length_le
            simp only [List.length_cons] at hs
            rw [hv]
            omega
          rw [ih v hvlen]
          simp
        · -- a separator character: it survives and contributes no run
          have hng : ¬(x ≠ [] ∧ x.isPrefixOf (c :: cs)) := by
            rintro ⟨hx1, hx2⟩
            obtain ⟨t, ht⟩ := List.isPrefixOf_iff_prefix.mp hx2
            cases x with
            | nil => exact hx1 rfl
            | cons e es =>
              have he : e = c := by
                have := congrArg (fun l => l.headD ' ') ht
                simpa using this
              have : identc e = true := hxid e (List.mem_cons_self e es)
              rw [he] at this
              exact hc this
          rw [replaceL_cons_neg c cs x FALSE hng]
          rw [runsL_cons_neg c _ hc, runsL_cons_neg c cs hc]
          have : cs.length ≤ n := by simp only [List.length_cons] at hs; omega
          exact ih cs this
  exact fun s => key s.length s (le_refl _)

/-- Python values a selector expression can produce in our fragment. -/
inductive PyVal where
  | vbool (b : Bool)
  | vint (n : Nat)
  | vnone
deriving DecidableEq, Repr

/-- Python truthiness, as used by `if eval_selector(...)`. -/
def truthy : PyVal → Bool
  | .vbool b => b
  | .vint n => n ≠ 0
  | .vnone => false

/-- Tokens of the boolean selector fragment. -/
inductive Tok where
  | kand
  | kor
  | knot
  | lit (v : PyVal)
  | name (x : List Char)
deriving DecidableEq, Repr

def TRUEL : List Char := ['T', 'r', 'u', 'e']
def ANDL : List Char := ['a', 'n', 'd']
def ORL : List Char := ['o', 'r']
def NOTL : List Char := ['n', 'o', 't']
def NONEL : List Char := ['N', 'o', 'n', 'e']

def natOfDigits (r : List Char) : Nat :=
  r.foldl (fun a c => a * 10 + (c.toNat - 48)) 0

/-- Classify one maximal identifier run the way CPython's tokenizer and
compiler do on this fragment: keywords, `True`/`False`/`None`, decimal
literals, or a name; a digit-led run that is not a number is a
`SyntaxError`. -/
def classifyRun (r : List Char) : Except Unit Tok :=
  if r = TRUEL then .ok (.lit (.vbool true))
  else if r = FALSE then .ok (.lit (.vbool false))
  else if r = NONEL then .ok (.lit .vnone)
  else if r = ANDL then .ok .kand
  else if r = ORL then .ok .kor
  else if r = NOTL then .ok .knot
  else if r.all (fun c => c.isDigit) then .ok (.lit (.vint (natOfDigits r)))
  else
    match r with
    | [] => .error ()
    | c :: _ => if c.isDigit then .error () else .ok (.name r)

/-- Tokenize a selector string: identifier runs are classified, blanks
are skipped, anything else is a `SyntaxError` in this fragment. -/
def tokenizeL : List Char → Except Unit (List Tok)
  | [] => .ok []
  | c :: cs =>
    if identc c then
      match classifyRun (c :: cs.takeWhile identc) with
      | .error e => .error e
      | .ok t =>
        match tokenizeL (cs.dropWhile identc) with
        | .error e => .error e
        | .ok ts => .ok (t :: ts)
    else if c = ' ' ∨ c = '	' then tokenizeL cs
    else .error ()
termination_by s => s.length
decreasing_by
  · simp only [List.length_cons]
    have := (List.dropWhile_suffix (l := cs) identc).length_le
    omega
  · simp

theorem tokenizeL_nil : tokenizeL [] = .ok [] := by simp [tokenizeL]

/-- A separator character admissible for the tokenizer. -/
def sepOK (c : Char) : Bool := identc c || c = ' ' || c = '	'

/-- A successful tokenization only sees identifier characters and
blanks. -/
theorem tokenizeL_chars (s : List Char) (toks : List Tok)
    (h : tokenizeL s = .ok toks) : ∀ c ∈ s, sepOK c = true := by
  induction s using tokenizeL.induct generalizing toks with
  | case1 => simp
  | case2 c cs hident e hclerr =>
    rw [tokenizeL] at h
    simp only [hident, if_true, hclerr] at h
    exact absurd h (by simp)
  | case3 c cs hident t hclok e htokerr ih =>
    rw [tokenizeL] at h
    simp only [hident, if_true, hclok, htokerr] at h
    exact absurd h (by simp)
  | case4 c cs hident t hclok ts2 htokok ih =>
    intro d hd
    rcases List.mem_cons.mp hd with h1 | h2
    · simp [sepOK, h1, hident]
    · by_cases hdw : identc d
      · simp [sepOK, hdw]
      · have hd2 : d ∈ cs.takeWhile identc ∨ d ∈ cs.dropWhile identc := by
          rw [← List.mem_append, List.takeWhile_append_dropWhile]
          exact h2
        rcases hd2 with h3 | h4
        · exact absurd (List.mem_takeWhile_imp h3) hdw
        · exact ih ts2 htokok d h4
  | case5 c cs hnident hsp ih =>
    rw [tokenizeL] at h
    simp only [hnident, if_false, hsp, if_true] at h
    intro d hd
    rcases List.mem_cons.mp hd with h1 | h2
    · rcases hsp with h3 | h3 <;> simp [sepOK, h1, h3]
    · exact ih toks h d h2
  | case6 c cs hnident hnsp =>
    rw [tokenizeL] at h
    simp only [hnident, if_false, hnsp] at h
    exact absurd h (by simp)

/-- Effectful map over `Except`, written out (mirrors the sequencing in
`tokenizeL`). -/
def mapME (f : α → Except Unit β) : List α → Except Unit (List β)
  | [] => .ok []
  | a :: as =>
    match f a with
    | .error e => .error e
    | .ok b =>
      match mapME f as with
      | .error e => .error e
      | .ok bs => .ok (b :: bs)

theorem mapME_nil (f : α → Except Unit β) : mapME f [] = .ok [] := rfl

theorem mapME_cons (f : α → Except Unit β) (a : α) (as : List α) :
    mapME f (a :: as)
      = match f a with
        | .error e => .error e
        | .ok b =>
          match mapME f as with
          | .error e => .error e
          | .ok bs => .ok (b :: bs) := rfl

/-- When every character is admissible, tokenization is classification
of the identifier runs. -/
theorem tokenizeL_eq_mapM (s : List Char) (hok : ∀ c ∈ s, sepOK c = true) :
    tokenizeL s = mapME classifyRun (runsL s) := by
  induction s using tokenizeL.induct with
  | case1 => simp [tokenizeL, runsL_nil, mapME_nil]
  | case2 c cs hident e hclerr =>
    rw [tokenizeL, runsL_cons_pos c cs hident, mapME_cons]
    simp only [hident, if_true, hclerr]
  | case3 c cs hident t hclok e htokerr ih =>
    rw [tokenizeL, runsL_cons_pos c cs hident, mapME_cons]
    simp only [hident, if_true, hclok, htokerr]
    have hok2 : ∀ d ∈ cs.dropWhile identc, sepOK d = true := fun d hd =>
      hok d (List.mem_cons_of_mem c ((List.dropWhile_suffix identc).subset hd))
    have := ih hok2
    rw [htokerr] at this
    rw [← this]
  | case4 c cs hident t hclok ts2 htokok ih =>
    rw [tokenizeL, runsL_cons_pos c cs hident, mapME_cons]
    simp only [hident, if_true, hclok, htokok]
    have hok2 : ∀ d ∈ cs.dropWhile identc, sepOK d = true := fun d hd =>
      hok d (List.mem_cons_of_mem c ((List.dropWhile_suffix identc).subset hd))
    have := ih hok2
    rw [htokok] at this
    rw [← this]
  | case5 c cs hnident hsp ih =>
    rw [tokenizeL, runsL_cons_neg c cs hnident]
    simp only [hnident, if_false, hsp, if_true]
    exact ih (fun d hd => hok d (List.mem_cons_of_mem c hd))
  | case6 c cs hnident hnsp =>
    have := hok c (List.mem_cons_self c cs)
    simp only [sepOK, Bool.or_eq_true, decide_eq_true_eq] at this
    rcases this with (h | h) | h
    · exact absurd h hnident
    · exact absurd (Or.inl h) hnsp
    · exact absurd (Or.inr h) hnsp

/-- Abstract syntax of the boolean selector fragment. -/
inductive Expr where
  | elit (v : PyVal)
  | ename (x : List Char)
  | enot (e : Expr)
  | eand (a b : Expr)
  | eor (a b : Expr)
deriving DecidableEq, Repr

/-- Parse a (possibly `not`-nested) atom: literal or name. -/
def parseNotT : List Tok → Except Unit (Expr × List Tok)
  | [] => .error ()
  | .knot :: rest =>
    match parseNotT rest with
    | .ok (e, r) => .ok (.enot e, r)
    | .error e => .error e
  | .lit v :: rest => .ok (.elit v, rest)
  | .name x :: rest => .ok (.ename x, rest)
  | .kand :: _ => .error ()
  | .kor :: _ => .error ()

theorem parseNotT_consumes (ts : List Tok) (e : Expr) (r : List Tok)
    (h : parseNotT ts = .ok (e, r)) : r.length < ts.length := by
  induction ts generalizing e r with
  | nil => exact absurd h (by simp [parseNotT])
  | cons t rest ih =>
    cases t with
    | knot =>
      rw [parseNotT] at h
      cases hrec : parseNotT rest with
      | error er => rw [hrec] at h; exact absurd h (by simp)
      | ok p =>
        obtain ⟨e2, r2⟩ := p
        rw [hrec] at h
        cases h
        exact Nat.lt_trans (ih e2 r hrec) (by simp)
    | lit v => rw [parseNotT] at h; cases h; simp
    | name x => rw [parseNotT] at h; cases h; simp
    | kand => exact absurd h (by simp [parseNotT])
    | kor => exact absurd h (by simp [parseNotT])

/-- `and` chains.  CPython nests them to the left; we nest to the right,
which evaluates operands in the same order and yields the same value and
the same first error under short-circuiting, so the model is
observationally the same. -/
def parseAndT (ts : List Tok) : Except Unit (Expr × List Tok) :=
  match h1 : parseNotT ts with
  | .error e => .error e
  | .ok (e1, .kand :: r2) =>
    match parseAndT r2 with
    | .error e => .error e
    | .ok (e2, r3) => .ok (.eand e1 e2, r3)
  | .ok (e1, r) => .ok (e1, r)
termination_by ts.length
decreasing_by
  have := parseNotT_consumes ts e1 (Tok.kand :: r2) h1
  simp only [List.length_cons] at this
  omega

theorem parseAndT_consumes (ts : List Tok) (e : Expr) (r : List Tok)
    (h : parseAndT ts = .ok (e, r)) : r.length < ts.length := by
  have key : ∀ n : Nat, ∀ ts : List Tok, ts.length ≤ n → ∀ e r,
      parseAndT ts = .ok (e, r) → r.length < ts.length := by
    intro n
    induction n with
    | zero =>
      intro ts hts e r h
      have h0 : ts = [] := List.length_eq_zero.mp (Nat.le_zero.mp hts)
      subst h0
      rw [parseAndT.eq_def] at h
      simp [parseNotT] at h
    | succ n ih =>
      intro ts hts e r h
      rw [parseAndT.eq_def] at h
      split at h
      · exact absurd h (by simp)
      · rename_i e1 r2 h1
        have hc1 := parseNotT_consumes ts e1 (Tok.kand :: r2) h1
        simp only [List.length_cons] at hc1
        split at h
        · exact absurd h (by simp)
        · rename_i e2 r3 hrec
          cases h
          have h5 := ih r2 (by omega) e2 r hrec
          omega
      · rename_i e1 r1 hne heq
        cases h
        exact parseNotT_consumes ts e r heq
  exact key ts.length ts (le_refl _) e r h

/-- `or` chains, right-nested as for `and`. -/
def parseOrT (ts : List Tok) : Except Unit (Expr × List Tok) :=
  match h1 : parseAndT ts with
  | .error e => .error e
  | .ok (e1, .kor :: r2) =>
    match parseOrT r2 with
    | .error e => .error e
    | .ok (e2, r3) => .ok (.eor e1 e2, r3)
  | .ok (e1, r) => .ok (e1, r)
termination_by ts.length
decreasing_by
  have := parseAndT_consumes ts e1 (Tok.kor :: r2) h1
  simp only [List.length_cons] at this
  omega

/-- Plain unfolding equation for `parseAndT` (for evaluating concrete
inputs). -/
theorem parseAndT_unfold (ts : List Tok) :
    parseAndT ts =
      match parseNotT ts with
      | .error e => .error e
      | .ok (e1, .kand :: r2) =>
        match parseAndT r2 with
        | .error e => .error e
        | .ok (e2, r3) => .ok (.eand e1 e2, r3)
      | .ok (e1, r) => .ok (e1, r) := by
  rw [parseAndT.eq_def]
  split
  · rename_i h
    rw [h]
  · rename_i h
    rw [h]
  · rename_i e1 r h1 h2
    rw [h2]
    cases r with
    | nil => rfl
    | cons t r2 =>
      cases t with
      | kand => exact absurd rfl (h1 r2)
      | kor => rfl
      | knot => rfl
      | lit v => rfl
      | name x => rfl

/-- Plain unfolding equation for `parseOrT`. -/
theorem parseOrT_unfold (ts : List Tok) :
    parseOrT ts =
      match parseAndT ts with
      | .error e => .error e
      | .ok (e1, .kor :: r2) =>
        match parseOrT r2 with
        | .error e => .error e
        | .ok (e2, r3) => .ok (.eor e1 e2, r3)
      | .ok (e1, r) => .ok (e1, r) := by
  rw [parseOrT.eq_def]
  split
  · rename_i h
    rw [h]
  · rename_i h
    rw [h]
  · rename_i e1 r h1 h2
    rw [h2]
    cases r with
    | nil => rfl
    | cons t r2 =>
      cases t with
      | kand => rfl
      | kor => exact absurd rfl (h1 r2)
      | knot => rfl
      | lit v => rfl
      | name x => rfl

/-- The whole token stream must form one expression (as for `eval`). -/
def parseToks (ts : List Tok) : Except Unit Expr :=
  match parseOrT ts with
  | .error e => .error e
  | .ok (e, []) => .ok e
  | .ok (_, _ :: _) => .error ()

/-- The errors `eval` can raise on this fragment: a `SyntaxError`, or a
`NameError` carrying the offending name (`parseNameNotFound` in
`metadata.py` extracts exactly this name from the exception text
"name 'var' is not defined", so we carry it directly). -/
inductive PErr where
  | syn
  | nameError (x : List Char)
deriving DecidableEq, Repr

/-- A namespace: symbol → value, as the `namespace` dict passed to
`eval_selector` (built by `ns_cfg`). -/
def NS := List (List Char × PyVal)

def lookupNS : NS → List Char → Option PyVal
  | [], _ => none
  | (k, v) :: rest, x => if k = x then some v else lookupNS rest x

/-- Short-circuit evaluation, exactly CPython's: `a or b` returns `a`'s
value when truthy, otherwise `b`'s; `a and b` dually; `not` produces a
bool; an unbound name raises `NameError` at the moment it is evaluated. -/
def evalE (env : NS) : Expr → Except PErr PyVal
  | .elit v => .ok v
  | .ename x =>
    match lookupNS env x with
    | some v => .ok v
    | none => .error (.nameError x)
  | .enot e =>
    match evalE env e with
    | .ok v => .ok (.vbool (!truthy v))
    | .error er => .error er
  | .eand a b =>
    match evalE env a with
    | .ok va => if truthy va then evalE env b else .ok va
    | .error er => .error er
  | .eor a b =>
    match evalE env a with
    | .ok va => if truthy va then .ok va else evalE env b
    | .error er => .error er

/-- Names occurring in an expression. -/
def exprNames : Expr → List (List Char)
  | .elit _ => []
  | .ename x => [x]
  | .enot e => exprNames e
  | .eand a b => exprNames a ++ exprNames b
  | .eor a b => exprNames a ++ exprNames b

/-- The model of Python `eval(selector_string, namespace, {})` on the
selector fragment: tokenize, compile (any failure is a `SyntaxError`,
raised before any evaluation, as CPython compiles first), then
evaluate. -/
def evalPy (s : List Char) (env : NS) : Except PErr PyVal :=
  match tokenizeL s with
  | .error _ => .error .syn
  | .ok ts =>
    match parseToks ts with
    | .error _ => .error .syn
    | .ok e => evalE env e

/-- `eval_selector` (`metadata.py:133-143`), fuelled: evaluate; on
`NameError` for `missing_var`, textually replace every occurrence of it
by `"False"` and retry; any other exception propagates (and is caught by
`select_lines`, which aborts).  `none` means the fuel ran out. -/
def eval_selectorF : Nat → List Char → NS → Option (Except Unit PyVal)
  | 0, _, _ => none
  | n + 1, s, env =>
    match evalPy s env with
    | .ok v => some (.ok v)
    | .error .syn => some (.error ())
    | .error (.nameError x) => eval_selectorF n (replaceL s x FALSE) env

/-- An evaluation error names an expression name. -/
theorem evalE_nameError_mem (env : NS) (e : Expr) (x : List Char)
    (h : evalE env e = .error (.nameError x)) :
    x ∈ exprNames e ∧ lookupNS env x = none := by
  induction e with
  | elit v => exact absurd h (by simp [evalE])
  | ename y =>
    rw [evalE] at h
    cases hl : lookupNS env y with
    | some v => rw [hl] at h; exact absurd h (by simp)
    | none =>
      rw [hl] at h
      simp only [Except.error.injEq, PErr.nameError.injEq] at h
      subst h
      exact ⟨by simp [exprNames], hl⟩
  | enot e ih =>
    rw [evalE] at h
    cases he : evalE env e with
    | ok v => rw [he] at h; exact absurd h (by simp)
    | error er =>
      rw [he] at h
      simp only [Except.error.injEq] at h
      subst h
      exact ih he
  | eand a b iha ihb =>
    rw [evalE] at h
    cases ha : evalE env a with
    | ok va =>
      rw [ha] at h
      by_cases htr : truthy va
      · simp only [htr, if_true] at h
        have := ihb h
        exact ⟨by simp [exprNames, this.1], this.2⟩
      · simp only [htr, if_false] at h
        exact absurd h (by simp)
    | error er =>
      rw [ha] at h
      simp only [Except.error.injEq] at h
      subst h
      have := iha ha
      exact ⟨by simp [exprNames, this.1], this.2⟩
  | eor a b iha ihb =>
    rw [evalE] at h
    cases ha : evalE env a with
    | ok va =>
      rw [ha] at h
      by_cases htr : truthy va
      · simp only [htr, if_true] at h
        exact absurd h (by simp)
      · simp only [htr, if_false] at h
        have := ihb h
        exact ⟨by simp [exprNames, this.1], this.2⟩
    | error er =>
      rw [ha] at h
      simp only [Except.error.injEq] at h
      subst h
      have := iha ha
      exact ⟨by simp [exprNames, this.1], this.2⟩

/-- The names among a token stream. -/
def tokNames (ts : List Tok) : List (List Char) :=
  ts.filterMap (fun t => match t with | .name x => some x | _ => none)

theorem mem_tokNames (ts : List Tok) (x : List Char) :
    x ∈ tokNames ts ↔ Tok.name x ∈ ts := by
  induction ts with
  | nil => simp [tokNames]
  | cons t rest ih =>
    cases t with
    | name y =>
      simp only [tokNames, List.filterMap_cons] at ih ⊢
      simp [ih, List.mem_cons]
    | kand => simpa [tokNames, List.filterMap_cons] using ih
    | kor => simpa [tokNames, List.filterMap_cons] using ih
    | knot => simpa [tokNames, List.filterMap_cons] using ih
    | lit v => simpa [tokNames, List.filterMap_cons] using ih

theorem parseNotT_shape (ts : List Tok) (e : Expr) (r : List Tok)
    (h : parseNotT ts = .ok (e, r)) :
    (∀ x ∈ exprNames e, Tok.name x ∈ ts) ∧ r <:+ ts := by
  induction ts generalizing e r with
  | nil => exact absurd h (by simp [parseNotT])
  | cons t rest ih =>
    cases t with
    | knot =>
      rw [parseNotT] at h
      cases hrec : parseNotT rest with
      | error er => rw [hrec] at h; exact absurd h (by simp)
      | ok p =>
        obtain ⟨e2, r2⟩ := p
        rw [hrec] at h
        cases h
        obtain ⟨h1, h2⟩ := ih e2 r hrec
        exact ⟨fun x hx => List.mem_cons_of_mem _ (h1 x hx),
          h2.trans (List.suffix_cons Tok.knot rest)⟩
    | lit v =>
      rw [parseNotT] at h
      cases h
      exact ⟨by simp [exprNames], List.suffix_cons _ rest⟩
    | name x =>
      rw [parseNotT] at h
      cases h
      exact ⟨by simp [exprNames], List.suffix_cons _ rest⟩
    | kand => exact absurd h (by simp [parseNotT])
    | kor => exact absurd h (by simp [parseNotT])

theorem parseAndT_shape (ts : List Tok) (e : Expr) (r : List Tok)
    (h : parseAndT ts = .ok (e, r)) :
    (∀ x ∈ exprNames e, Tok.name x ∈ ts) ∧ r <:+ ts := by
  have key : ∀ n : Nat, ∀ ts : List Tok, ts.length ≤ n → ∀ e r,
      parseAndT ts = .ok (e, r) →
      (∀ x ∈ exprNames e, Tok.name x ∈ ts) ∧ r <:+ ts := by
    intro n
    induction n with
    | zero =>
      intro ts hts e r h
      have h0 : ts = [] := List.length_eq_zero.mp (Nat.le_zero.mp hts)
      subst h0
      rw [parseAndT.eq_def] at h
      simp [parseNotT] at h
    | succ n ih =>
      intro ts hts e r h
      rw [parseAndT.eq_def] at h
      split at h
      · exact absurd h (by simp)
      · rename_i e1 r2 h1
        obtain ⟨hn1, hs1⟩ := parseNotT_shape ts e1 (Tok.kand :: r2) h1
        have hr2 : r2.length < ts.length := by
          have := hs1.length_le
          simp only [List.length_cons] at this
          omega
        split at h
        · exact absurd h (by simp)
        · rename_i e2 r3 hrec
          cases h
          obtain ⟨hn2, hs2⟩ := ih r2 (by omega) e2 r hrec
          have hr2ts : r2 <:+ ts := ((List.suffix_cons Tok.kand r2).trans hs1)
          refine ⟨?_, hs2.trans hr2ts⟩
          intro x hx
          simp only [exprNames, List.mem_append] at hx
          rcases hx with hx | hx
          · exact hn1 x hx
          · exact hr2ts.subset (hn2 x hx)
      · rename_i e1 r1 hne heq
        cases h
        exact parseNotT_shape ts e r heq
  exact key ts.length ts (le_refl _) e r h

theorem parseOrT_shape (ts : List Tok) (e : Expr) (r : List Tok)
    (h : parseOrT ts = .ok (e, r)) :
    (∀ x ∈ exprNames e, Tok.name x ∈ ts) ∧ r <:+ ts := by
  have key : ∀ n : Nat, ∀ ts : List Tok, ts.length ≤ n → ∀ e r,
      parseOrT ts = .ok (e, r) →
      (∀ x ∈ exprNames e, Tok.name x ∈ ts) ∧ r <:+ ts := by
    intro n
    induction n with
    | zero =>
      intro ts hts e r h
      have h0 : ts = [] := List.length_eq_zero.mp (Nat.le_zero.mp hts)
      subst h0
      have hA : parseAndT [] = .error () := by
        rw [parseAndT.eq_def]
        simp [parseNotT]
      rw [parseOrT.eq_def] at h
      split at h
      · exact absurd h (by simp)
      · rename_i h1
        rw [hA] at h1
        exact absurd h1 (by simp)
      · rename_i h1
        rw [hA] at h1
        exact absurd h1 (by simp)
    | succ n ih =>
      intro ts hts e r h
      rw [parseOrT.eq_def] at h
      split at h
      · exact absurd h (by simp)
      · rename_i e1 r2 h1
        obtain ⟨hn1, hs1⟩ := parseAndT_shape ts e1 (Tok.kor :: r2) h1
        have hr2 : r2.length < ts.length := by
          have := hs1.length_le
          simp only [List.length_cons] at this
          omega
        split at h
        · exact absurd h (by simp)
        · rename_i e2 r3 hrec
          cases h
          obtain ⟨hn2, hs2⟩ := ih r2 (by omega) e2 r hrec
          have hr2ts : r2 <:+ ts := ((List.suffix_cons Tok.kor r2).trans hs1)
          refine ⟨?_, hs2.trans hr2ts⟩
          intro x hx
          simp only [exprNames, List.mem_append] at hx
          rcases hx with hx | hx
          · exact hn1 x hx
          · exact hr2ts.subset (hn2 x hx)
      · rename_i e1 r1 hne heq
        cases h
        exact parseAndT_shape ts e r heq
  exact key ts.length ts (le_refl _) e r h

theorem parseToks_names (ts : List Tok) (e : Expr)
    (h : parseToks ts = .ok e) : ∀ x ∈ exprNames e, Tok.name x ∈ ts := by
  rw [parseToks] at h
  cases hp : parseOrT ts with
  | error er => rw [hp] at h; exact absurd h (by simp)
  | ok p =>
    obtain ⟨e2, r⟩ := p
    rw [hp] at h
    cases r with
    | nil =>
      have he : e2 = e := by simpa using h
      subst he
      exact (parseOrT_shape ts e2 [] hp).1
    | cons t rest => exact absurd h (by simp)

/-- Membership in a successful `mapME` comes from a source element. -/
theorem mapME_mem (f : α → Except Unit β) (l : List α) (bs : List β)
    (h : mapME f l = .ok bs) (b : β) (hb : b ∈ bs) : ∃ a ∈ l, f a = .ok b := by
  induction l generalizing bs with
  | nil =>
    rw [mapME_nil] at h
    simp only [Except.ok.injEq] at h
    subst h
    simp at hb
  | cons a as ih =>
    rw [mapME_cons] at h
    cases hf : f a with
    | error er => rw [hf] at h; exact absurd h (by simp)
    | ok b1 =>
      rw [hf] at h
      cases hrec : mapME f as with
      | error er => rw [hrec] at h; exact absurd h (by simp)
      | ok bs1 =>
        rw [hrec] at h
        simp only [Except.ok.injEq] at h
        subst h
        rcases List.mem_cons.mp hb with h1 | h2
        · exact ⟨a, List.mem_cons_self a as, h1 ▸ hf⟩
        · obtain ⟨a2, ha2, hfa2⟩ := ih bs1 hrec h2
          exact ⟨a2, List.mem_cons_of_mem a ha2, hfa2⟩

/-- `classifyRun` only produces a name token carrying the run itself. -/
theorem classifyRun_name_inv (r : List Char) (y : List Char)
    (h : classifyRun r = .ok (.name y)) : y = r := by
  unfold classifyRun at h
  split_ifs at h with h1 h2 h3 h4 h5 h6 h7
  all_goals try exact absurd h (by simp)
  match r, h with
  | [], h => exact absurd h (by simp)
  | c :: cs, h =>
    by_cases hdg : c.isDigit
    · simp [hdg] at h
    · simp [hdg] at h
      exact h.symm

/-- The failing name of an evaluation is one of the identifier runs of
the string, classified as a name. -/
theorem evalPy_nameError_run (s : List Char) (env : NS) (x : List Char)
    (h : evalPy s env = .error (.nameError x)) :
    x ∈ runsL s ∧ classifyRun x = .ok (.name x) ∧ lookupNS env x = none := by
  rw [evalPy] at h
  split at h
  · exact absurd h (by simp)
  · rename_i ts ht
    split at h
    · exact absurd h (by simp)
    · rename_i e hp
      obtain ⟨hmem, hlook⟩ := evalE_nameError_mem env e x h
      have htok : Tok.name x ∈ ts := parseToks_names ts e hp x hmem
      have hchars := tokenizeL_chars s ts ht
      have hmm : mapME classifyRun (runsL s) = .ok ts := by
        rw [← tokenizeL_eq_mapM s hchars]; exact ht
      obtain ⟨r, hr, hcl⟩ := mapME_mem classifyRun (runsL s) ts hmm (Tok.name x) htok
      have hxr : x = r := classifyRun_name_inv r x hcl
      subst hxr
      exact ⟨hr, hcl, hlook⟩

/-- Characters of the pattern occur in the string when it occurs. -/
theorem occCount_pos_subset (r x : List Char) (h : 0 < occCount r x) :
    ∀ c ∈ x, c ∈ r := by
  induction r, x using occCount.induct with
  | case1 => rw [occCount_nil] at h; omega
  | case2 x b bs hg ih =>
    intro c hc
    exact (List.isPrefixOf_iff_prefix.mp hg.2).subset hc
  | case3 x b bs hg ih =>
    rw [occCount_cons_neg b bs x hg] at h
    intro c hc
    exact List.mem_cons_of_mem b (ih h c hc)

/-- One occurrence filling the whole string is the string. -/
theorem occCount_pos_length_eq (r x : List Char) (hx : x ≠ [])
    (h : 0 < occCount r x) (hlen : r.length = x.length) : r = x := by
  cases r with
  | nil =>
    rw [occCount_nil] at h
    omega
  | cons c cs =>
    by_cases hg : x ≠ [] ∧ x.isPrefixOf (c :: cs)
    · have hpre := List.isPrefixOf_iff_prefix.mp hg.2
      rw [List.prefix_iff_eq_take.mp hpre, ← hlen]
      simp
    · rw [occCount_cons_neg c cs x hg] at h
      have hble := occCount_mul_le cs x
      have hx1 : 1 ≤ x.length := List.length_pos.mpr hx
      have : 1 * x.length ≤ occCount cs x * x.length :=
        Nat.mul_le_mul_right x.length h
      simp only [List.length_cons] at hlen
      omega

/-- Is this run classified as a name? -/
def nameRunB (r : List Char) : Bool :=
  match classifyRun r with
  | .ok (.name _) => true
  | _ => false

theorem nameRunB_iff (r : List Char) :
    nameRunB r = true ↔ classifyRun r = .ok (.name r) := by
  rw [nameRunB]
  constructor
  · intro h
    cases hcl : classifyRun r with
    | error er => rw [hcl] at h; simp at h
    | ok t =>
      cases t with
      | name y =>
        have hy := classifyRun_name_inv r y hcl
        rw [hy]
      | kand => rw [hcl] at h; simp at h
      | kor => rw [hcl] at h; simp at h
      | knot => rw [hcl] at h; simp at h
      | lit v => rw [hcl] at h; simp at h
  · intro h
    rw [h]

/-- Facts extracted from a run being classified as a name. -/
theorem classifyRun_name_props (r : List Char)
    (h : classifyRun r = .ok (.name r)) :
    r ≠ TRUEL ∧ r ≠ FALSE ∧ r ≠ NONEL ∧ r ≠ ANDL ∧ r ≠ ORL ∧ r ≠ NOTL ∧
    (r.all fun c => c.isDigit) = false ∧
    ∃ c cs, r = c :: cs ∧ c.isDigit = false := by
  unfold classifyRun at h
  split_ifs at h with h1 h2 h3 h4 h5 h6 h7
  all_goals try exact absurd h (by simp)
  refine ⟨h1, h2, h3, h4, h5, h6, Bool.eq_false_iff.mpr h7, ?_⟩
  match r, h with
  | [], h => exact absurd h (by simp)
  | c :: cs, h =>
    by_cases hdg : c.isDigit
    · simp [hdg] at h
    · exact ⟨c, cs, rfl, Bool.eq_false_iff.mpr hdg⟩

/-- The if-chain of `classifyRun` resolved for a plain name. -/
theorem classifyRun_name_intro (w : List Char)
    (h1 : w ≠ TRUEL) (h2 : w ≠ FALSE) (h3 : w ≠ NONEL) (h4 : w ≠ ANDL)
    (h5 : w ≠ ORL) (h6 : w ≠ NOTL)
    (h7 : (w.all fun c => c.isDigit) = false)
    (h8 : ∃ c cs, w = c :: cs ∧ c.isDigit = false) :
    classifyRun w = .ok (.name w) := by
  obtain ⟨c, cs, hw, hc⟩ := h8
  unfold classifyRun
  rw [if_neg h1, if_neg h2, if_neg h3, if_neg h4, if_neg h5, if_neg h6,
      if_neg (by rw [h7]; simp)]
  subst hw
  simp [hc]

/-- The if-chain of `classifyRun` resolved for a digit-led non-number
(`SyntaxError`). -/
theorem classifyRun_err_intro (w : List Char)
    (h7 : (w.all fun c => c.isDigit) = false)
    (h8 : ∃ c cs, w = c :: cs ∧ c.isDigit = true) :
    classifyRun w = .error () := by
  obtain ⟨c, cs, hw, hc⟩ := h8
  have hhd : ∀ kw : List Char, w = kw → kw.headD ' ' = c := by
    intro kw hkw
    rw [← hkw, hw]
    rfl
  have hT : w ≠ TRUEL := fun h => absurd (hhd TRUEL h ▸ hc) (by decide)
  have hF : w ≠ FALSE := fun h => absurd (hhd FALSE h ▸ hc) (by decide)
  have hN : w ≠ NONEL := fun h => absurd (hhd NONEL h ▸ hc) (by decide)
  have hA : w ≠ ANDL := fun h => absurd (hhd ANDL h ▸ hc) (by decide)
  have hO : w ≠ ORL := fun h => absurd (hhd ORL h ▸ hc) (by decide)
  have hNo : w ≠ NOTL := fun h => absurd (hhd NOTL h ▸ hc) (by decide)
  unfold classifyRun
  rw [if_neg hT, if_neg hF, if_neg hN, if_neg hA, if_neg hO, if_neg hNo,
      if_neg (by rw [h7]; simp)]
  subst hw
  simp [hc]

/-- Inversion of a `classifyRun` syntax error on a non-empty run. -/
theorem classifyRun_err_inv (r : List Char) (hne : r ≠ [])
    (h : classifyRun r = .error ()) :
    (r.all fun c => c.isDigit) = false ∧
    ∃ c cs, r = c :: cs ∧ c.isDigit = true := by
  unfold classifyRun at h
  split_ifs at h with h1 h2 h3 h4 h5 h6 h7
  all_goals try exact absurd h (by simp)
  refine ⟨Bool.eq_false_iff.mpr h7, ?_⟩
  match r, hne, h with
  | c :: cs, hne, h =>
    by_cases hdg : c.isDigit
    · exact ⟨c, cs, rfl, hdg⟩
    · simp [hdg] at h

/-- Abbreviation for one degrade step on a run. -/
def stepRun (x r : List Char) : List Char := replaceL r x FALSE

/-- An occurrence makes the image at least 5 characters long and gives
it an `'a'`. -/
theorem stepRun_occ_facts (x r : List Char) (h : 0 < occCount r x) :
    5 ≤ (stepRun x r).length ∧ 'a' ∈ stepRun x r := by
  obtain ⟨u, v, huv⟩ := exists_decomp_of_occ_pos r x FALSE h
  rw [stepRun, huv]
  constructor
  · simp [FALSE]
    omega
  · simp [FALSE]

/-- A name run other than the failing name stays a name run. -/
theorem stepRun_name_name (x r : List Char)
    (hxname : classifyRun x = .ok (.name x))
    (hrname : classifyRun r = .ok (.name r)) (hrx : r ≠ x) :
    classifyRun (stepRun x r) = .ok (.name (stepRun x r)) := by
  by_cases hocc : 0 < occCount r x
  · obtain ⟨hlen5, hamem⟩ := stepRun_occ_facts x r hocc
    obtain ⟨_, _, _, _, _, _, hdig, c, cs, hrc, hcd⟩ := classifyRun_name_props r hrname
    refine classifyRun_name_intro (stepRun x r) ?_ ?_ ?_ ?_ ?_ ?_ ?_ ?_
    · intro h; rw [h] at hlen5; simp [TRUEL] at hlen5
    · intro h
      rcases replaceL_eq_FALSE r x h with h1 | h2
      · exact hrx h1
      · omega
    · intro h; rw [h] at hlen5; simp [NONEL] at hlen5
    · intro h; rw [h] at hlen5; simp [ANDL] at hlen5
    · intro h; rw [h] at hlen5; simp [ORL] at hlen5
    · intro h; rw [h] at hlen5; simp [NOTL] at hlen5
    · rw [List.all_eq_false]
      exact ⟨'a', hamem, by decide⟩
    · -- head survives or becomes 'F'; in both cases not a digit
      subst hrc
      rw [stepRun]
      rcases replaceL_head c cs x FALSE with h1 | h2
      · refine ⟨'F', ['a', 'l', 's', 'e'] ++ replaceL ((c :: cs).drop x.length) x FALSE, ?_, by decide⟩
        rw [h1]
        simp [FALSE]
      · exact ⟨c, replaceL cs x FALSE, h2, hcd⟩
  · rw [stepRun, replaceL_of_occCount_zero r x FALSE (by omega)]
    exact hrname

/-- A digit-led syntax-error run stays a syntax-error run. -/
theorem stepRun_err_err (x r : List Char) (hrne : r ≠ [])
    (hxname : classifyRun x = .ok (.name x))
    (hrerr : classifyRun r = .error ()) :
    classifyRun (stepRun x r) = .error () := by
  by_cases hocc : 0 < occCount r x
  · obtain ⟨hlen5, hamem⟩ := stepRun_occ_facts x r hocc
    obtain ⟨hdig, c, cs, hrc, hcd⟩ := classifyRun_err_inv r hrne hrerr
    refine classifyRun_err_intro (stepRun x r) ?_ ?_
    · rw [List.all_eq_false]
      exact ⟨'a', hamem, by decide⟩
    · subst hrc
      rw [stepRun]
      rcases replaceL_head c cs x FALSE with h1 | h2
      · -- the pattern cannot be a prefix: its head is not a digit
        obtain ⟨_, _, _, _, _, _, _, xc, xcs, hxc, hxcd⟩ := classifyRun_name_props x hxname
        by_cases hg : x ≠ [] ∧ x.isPrefixOf (c :: cs)
        · obtain ⟨t, ht⟩ := List.isPrefixOf_iff_prefix.mp hg.2
          have : xc = c := by
            have := congrArg (fun l => l.headD ' ') ht
            rw [hxc] at this
            simpa using this
          rw [this] at hxcd
          rw [hxcd] at hcd
          simp at hcd
        · rw [replaceL_cons_neg c cs x FALSE hg]
          exact ⟨c, replaceL cs x FALSE, rfl, hcd⟩
      · exact ⟨c, replaceL cs x FALSE, h2, hcd⟩
  · rw [stepRun, replaceL_of_occCount_zero r x FALSE (by omega)]
    exact hrerr

/-- A keyword/literal/number run contains no occurrence of a failing
name of length at least 5 (the failing name itself has length ≥ 5 and a
non-digit character, the keyword is shorter or equals `FALSE`, and a
number is all digits). -/
theorem keyword_no_occ (x r : List Char)
    (hxname : classifyRun x = .ok (.name x)) (hx5 : 5 ≤ x.length)
    (t : Tok)
    (hrt : classifyRun r = .ok t) (hnm : ∀ y, t ≠ .name y) :
    occCount r x = 0 := by
  by_contra hocc
  have hocc' : 0 < occCount r x := Nat.pos_of_ne_zero hocc
  have hxin : x.length ≤ r.length := by
    have h1 := occCount_mul_le r x
    have h2 : 1 * x.length ≤ occCount r x * x.length :=
      Nat.mul_le_mul_right x.length hocc'
    omega
  obtain ⟨hT, hF, hN, hA, hO, hNo, hdig, hcons⟩ := classifyRun_name_props x hxname
  -- examine how r was classified
  unfold classifyRun at hrt
  split_ifs at hrt with h1 h2 h3 h4 h5 h6 h7
  · rw [h1] at hxin; simp [TRUEL] at hxin; omega
  · -- r = FALSE: then x occurs in a 5-character string, so x = r = FALSE
    have hr5 : r.length = 5 := by rw [h2]; rfl
    have hxr : r = x :=
      occCount_pos_length_eq r x (by rintro rfl; simp at hx5) hocc' (by omega)
    rw [← hxr] at hF
    exact hF h2
  · rw [h3] at hxin; simp [NONEL] at hxin; omega
  · rw [h4] at hxin; simp [ANDL] at hxin; omega
  · rw [h5] at hxin; simp [ORL] at hxin; omega
  · rw [h6] at hxin; simp [NOTL] at hxin; omega
  · -- r is all digits but x has a non-digit character occurring in r
    rw [List.all_eq_false] at hdig
    obtain ⟨c, hcx, hcd⟩ := hdig
    have hcr : c ∈ r := occCount_pos_subset r x hocc' c hcx
    rw [List.all_eq_true] at h7
    exact absurd (h7 c hcr) (by simp [hcd])
  · -- otherwise classification is a name or an error, contradicting t
    match r, hrt with
    | [], hrt => exact absurd hrt (by simp)
    | c :: cs, hrt =>
      by_cases hdg : c.isDigit
      · simp [hdg] at hrt
      · simp [hdg] at hrt
        exact hnm (c :: cs) hrt.symm

/-- Count of name runs. -/
def nameCount (s : List Char) : Nat := (runsL s).countP nameRunB

def shortNameB (r : List Char) : Bool := nameRunB r && decide (r.length ≤ 4)

/-- The distinct short (≤ 4 character) names among the runs: such names
can never be re-created by a degrade step, which is what bounds the
number of steps that revive corrupted tokens. -/
def shortNS (s : List Char) : Finset (List Char) :=
  ((runsL s).filter shortNameB).toFinset

/-- Termination measure for `eval_selector`'s degrade-and-retry
recursion. -/
def muSel (s : List Char) : Nat :=
  (shortNS s).card * ((runsL s).length + 1) + nameCount s

theorem ite_bool_one (b : Bool) (h : b = true) : (if b = true then 1 else 0) = 1 := by simp [h]

theorem ite_bool_zero (b : Bool) (h : b = false) : (if b = true then 1 else 0) = 0 := by simp [h]

theorem countP_le_of_imp (l : List α) (p q : α → Bool)
    (hle : ∀ a ∈ l, q a = true → p a = true) : l.countP q ≤ l.countP p := by
  induction l with
  | nil => simp
  | cons a as ih =>
    rw [List.countP_cons, List.countP_cons]
    have h1 : ∀ b ∈ as, q b = true → p b = true := fun b hb => hle b (List.mem_cons_of_mem a hb)
    have h2 := ih h1
    by_cases hq : q a = true
    · rw [ite_bool_one _ hq, ite_bool_one _ (hle a (List.mem_cons_self a as) hq)]
      omega
    · rw [ite_bool_zero _ (by simpa using hq)]
      by_cases hp : p a = true
      · rw [ite_bool_one _ hp]
        omega
      · rw [ite_bool_zero _ (by simpa using hp)]
        omega

theorem countP_lt_of_mem (l : List α) (p q : α → Bool)
    (hle : ∀ a ∈ l, q a = true → p a = true) (a0 : α) (ha0 : a0 ∈ l)
    (hp : p a0 = true) (hq : q a0 = false) : l.countP q < l.countP p := by
  induction l with
  | nil => simp at ha0
  | cons a as ih =>
    rw [List.countP_cons, List.countP_cons]
    have h1 : ∀ b ∈ as, q b = true → p b = true := fun b hb => hle b (List.mem_cons_of_mem a hb)
    rcases List.mem_cons.mp ha0 with h0 | h0
    · subst h0
      rw [ite_bool_one _ hp, ite_bool_zero _ hq]
      have := countP_le_of_imp as p q h1
      omega
    · have h2 := ih h1 h0
      by_cases hqa : q a = true
      · rw [ite_bool_one _ hqa, ite_bool_one _ (hle a (List.mem_cons_self a as) hqa)]
        omega
      · rw [ite_bool_zero _ (by simpa using hqa)]
        by_cases hpa : p a = true
        · rw [ite_bool_one _ hpa]
          omega
        · rw [ite_bool_zero _ (by simpa using hpa)]
          omega

/-- The run list of a string and its degrade-step image. -/
theorem runs_step (s x : List Char) (hx : x ∈ runsL s)
    (hxname : classifyRun x = .ok (.name x)) :
    runsL (replaceL s x FALSE) = (runsL s).map (stepRun x) := by
  obtain ⟨hxne, hxid⟩ := mem_runsL s x hx
  exact runsL_replaceL x hxne hxid s

/-- Pointwise: a run whose image is a name was itself a name (given the
failing name is long, ≥ 5 characters). -/
theorem step_name_back (s x r : List Char) (hx5 : 5 ≤ x.length)
    (hxname : classifyRun x = .ok (.name x))
    (hr : r ∈ runsL s) (h : nameRunB (stepRun x r) = true) :
    nameRunB r = true := by
  obtain ⟨hrne, hrid⟩ := mem_runsL s r hr
  cases hcl : classifyRun r with
  | error er =>
    have := stepRun_err_err x r hrne hxname (by cases er; exact hcl)
    rw [nameRunB_iff] at h
    rw [h] at this
    exact absurd this (by simp)
  | ok t =>
    cases t with
    | name y =>
      have hy := classifyRun_name_inv r y hcl
      subst hy
      rw [nameRunB_iff]
      exact hcl
    | kand =>
      have hz := keyword_no_occ x r hxname hx5 .kand hcl (by intro y; simp)
      rw [stepRun, replaceL_of_occCount_zero r x FALSE hz] at h
      rw [nameRunB, hcl] at h
      simp at h
    | kor =>
      have hz := keyword_no_occ x r hxname hx5 .kor hcl (by intro y; simp)
      rw [stepRun, replaceL_of_occCount_zero r x FALSE hz] at h
      rw [nameRunB, hcl] at h
      simp at h
    | knot =>
      have hz := keyword_no_occ x r hxname hx5 .knot hcl (by intro y; simp)
      rw [stepRun, replaceL_of_occCount_zero r x FALSE hz] at h
      rw [nameRunB, hcl] at h
      simp at h
    | lit v =>
      have hz := keyword_no_occ x r hxname hx5 (.lit v) hcl (by intro y; simp)
      rw [stepRun, replaceL_of_occCount_zero r x FALSE hz] at h
      rw [nameRunB, hcl] at h
      simp at h

/-- The long-name step strictly lowers the number of name runs. -/
theorem nameCount_step_lt (s x : List Char) (hx : x ∈ runsL s) (hx5 : 5 ≤ x.length)
    (hxname : classifyRun x = .ok (.name x)) :
    nameCount (replaceL s x FALSE) < nameCount s := by
  obtain ⟨hxne, hxid⟩ := mem_runsL s x hx
  rw [nameCount, nameCount, runs_step s x hx hxname, List.countP_map]
  refine countP_lt_of_mem (runsL s) nameRunB (nameRunB ∘ stepRun x) ?_ x hx ?_ ?_
  · intro r hr h
    exact step_name_back s x r hx5 hxname hr h
  · rw [nameRunB_iff]
    exact hxname
  · simp only [Function.comp_apply, stepRun, replaceL_self x FALSE hxne]
    rw [nameRunB]
    rfl

/-- Any step keeps the number of runs. -/
theorem runsLen_step (s x : List Char) (hx : x ∈ runsL s)
    (hxname : classifyRun x = .ok (.name x)) :
    (runsL (replaceL s x FALSE)).length = (runsL s).length := by
  rw [runs_step s x hx hxname, List.length_map]

/-- Any step never enlarges the short-name set, and a short failing name
is removed from it. -/
theorem shortNS_step_subset (s x : List Char) (hx : x ∈ runsL s)
    (hxname : classifyRun x = .ok (.name x)) :
    shortNS (replaceL s x FALSE) ⊆ (shortNS s).erase x := by
  intro r' hr'
  rw [shortNS, List.mem_toFinset, List.mem_filter] at hr'
  obtain ⟨hmem, hshort⟩ := hr'
  rw [runs_step s x hx hxname, List.mem_map] at hmem
  obtain ⟨r, hr, hstep⟩ := hmem
  have hocc : occCount r x = 0 := by
    by_contra hocc
    have := (stepRun_occ_facts x r (Nat.pos_of_ne_zero hocc)).1
    rw [hstep] at this
    rw [shortNameB, Bool.and_eq_true, decide_eq_true_eq] at hshort
    omega
  have hrr : r' = r := by
    rw [← hstep, stepRun, replaceL_of_occCount_zero r x FALSE hocc]
  subst hrr
  have hrx : r' ≠ x := by
    rintro rfl
    obtain ⟨hxne, _⟩ := mem_runsL s r' hr
    have := occCount_self_pos r' hxne
    omega
  rw [Finset.mem_erase]
  exact ⟨hrx, by rw [shortNS, List.mem_toFinset, List.mem_filter]; exact ⟨hr, hshort⟩⟩

theorem nameCount_le_runsLen (s : List Char) : nameCount s ≤ (runsL s).length :=
  List.countP_le_length nameRunB

theorem nameCount_step_le (s x : List Char) (hx : x ∈ runsL s)
    (hxname : classifyRun x = .ok (.name x)) :
    nameCount (replaceL s x FALSE) ≤ (runsL s).length := by
  have := nameCount_le_runsLen (replaceL s x FALSE)
  rw [runsLen_step s x hx hxname] at this
  exact this

/-- One degrade step strictly decreases the measure. -/
theorem muSel_step (s : List Char) (env : NS) (x : List Char)
    (h : evalPy s env = .error (.nameError x)) :
    muSel (replaceL s x FALSE) < muSel s := by
  obtain ⟨hx, hxname, hlook⟩ := evalPy_nameError_run s env x h
  have hN : (runsL (replaceL s x FALSE)).length = (runsL s).length :=
    runsLen_step s x hx hxname
  have hsub := shortNS_step_subset s x hx hxname
  by_cases hx4 : x.length ≤ 4
  · -- a short failing name leaves the short-name set strictly smaller
    have hxin : x ∈ shortNS s := by
      rw [shortNS, List.mem_toFinset, List.mem_filter]
      refine ⟨hx, ?_⟩
      rw [shortNameB, Bool.and_eq_true, decide_eq_true_eq]
      exact ⟨nameRunB_iff x |>.mpr hxname, hx4⟩
    have hcard : (shortNS (replaceL s x FALSE)).card < (shortNS s).card :=
      lt_of_le_of_lt (Finset.card_le_card hsub) (Finset.card_erase_lt_of_mem hxin)
    have hf' := nameCount_step_le s x hx hxname
    rw [muSel, muSel, hN]
    have h1 : (shortNS (replaceL s x FALSE)).card + 1 ≤ (shortNS s).card := hcard
    have h2 : ((shortNS (replaceL s x FALSE)).card + 1) * ((runsL s).length + 1)
        ≤ (shortNS s).card * ((runsL s).length + 1) :=
      Nat.mul_le_mul_right _ h1
    have h3 : ((shortNS (replaceL s x FALSE)).card + 1) * ((runsL s).length + 1)
        = (shortNS (replaceL s x FALSE)).card * ((runsL s).length + 1)
          + ((runsL s).length + 1) := by ring
    omega
  · -- a long failing name strictly decreases the name-run count
    have hx5 : 5 ≤ x.length := by omega
    have hflt := nameCount_step_lt s x hx hx5 hxname
    have hcle : (shortNS (replaceL s x FALSE)).card ≤ (shortNS s).card :=
      le_trans (Finset.card_le_card hsub) (Finset.card_erase_le)
    rw [muSel, muSel, hN]
    have h2 := Nat.mul_le_mul_right ((runsL s).length + 1) hcle
    omega

/-- Enough fuel: the degrade-and-retry recursion completes within
`muSel s + 1` steps. -/
theorem eval_selectorF_isSome :
    ∀ (m : Nat) (s : List Char) (env : NS), muSel s < m →
      (eval_selectorF m s env).isSome = true := by
  intro m
  induction m using Nat.strong_induction_on with
  | _ m ih =>
    intro s env hlt
    cases m with
    | zero => omega
    | succ n =>
      rw [eval_selectorF]
      cases hev : evalPy s env with
      | ok v => simp
      | error er =>
        cases er with
        | syn => simp
        | nameError x =>
          have hstep := muSel_step s env x hev
          exact ih n (by omega) _ env (by omega)

/-- Adding fuel does not change a completed run. -/
theorem eval_selectorF_mono (n : Nat) (s : List Char) (env : NS)
    (r : Except Unit PyVal) (h : eval_selectorF n s env = some r) :
    ∀ m, n ≤ m → eval_selectorF m s env = some r := by
  induction n generalizing s with
  | zero => rw [eval_selectorF] at h; exact absurd h (by simp)
  | succ n ih =>
    intro m hm
    cases m with
    | zero => omega
    | succ m2 =>
      rw [eval_selectorF] at h ⊢
      cases hev : evalPy s env with
      | ok v => rw [hev] at h; exact h
      | error er =>
        cases er with
        | syn => rw [hev] at h; exact h
        | nameError x =>
          rw [hev] at h
          exact ih (replaceL s x FALSE) h m2 (by omega)

/-- The total `eval_selector` (`metadata.py:133-143`): the fuelled
recursion run with provably sufficient fuel. -/
def eval_selector (s : List Char) (env : NS) : Except Unit PyVal :=
  (eval_selectorF (muSel s + 1) s env).getD (.error ())

theorem eval_selector_eq_F (s : List Char) (env : NS) :
    eval_selectorF (muSel s + 1) s env = some (eval_selector s env) := by
  have h := eval_selectorF_isSome (muSel s + 1) s env (by omega)
  cases hv : eval_selectorF (muSel s + 1) s env with
  | none => rw [hv] at h; simp at h
  | some r => rw [eval_selector, hv]; rfl

/-- The defining equations of `eval_selector` at the total level. -/
theorem eval_selector_of_ok (s : List Char) (env : NS) (v : PyVal)
    (h : evalPy s env = .ok v) : eval_selector s env = .ok v := by
  rw [eval_selector, eval_selectorF, h]
  rfl

theorem eval_selector_of_syn (s : List Char) (env : NS)
    (h : evalPy s env = .error .syn) : eval_selector s env = .error () := by
  rw [eval_selector, eval_selectorF, h]
  rfl

/-- The recursion step: on a `NameError` for `x`, the result is that of
the string with every occurrence of `x` replaced by `"False"`. -/
theorem eval_selector_of_nameError (s : List Char) (env : NS) (x : List Char)
    (h : evalPy s env = .error (.nameError x)) :
    eval_selector s env = eval_selector (replaceL s x FALSE) env := by
  have hstep := muSel_step s env x h
  have h1 : eval_selectorF (muSel s + 1) s env
      = eval_selectorF (muSel s) (replaceL s x FALSE) env := by
    rw [eval_selectorF, h]
  have h2 : eval_selectorF (muSel s) (replaceL s x FALSE) env
      = some (eval_selector (replaceL s x FALSE) env) :=
    eval_selectorF_mono _ _ env _ (eval_selector_eq_F (replaceL s x FALSE) env)
      (muSel s) (by omega)
  have h3 := eval_selector_eq_F s env
  rw [h1, h2] at h3
  exact (Option.some.inj h3).symm

/-- Token substitution replacing the name `x` by the literal `False`
(the token-level effect of `eval_selector`'s textual replacement when no
other token contains `x`). -/
def tokSub (x : List Char) : Tok → Tok
  | .name y => if y = x then .lit (.vbool false) else .name y
  | t => t

/-- The corresponding substitution on parsed expressions. -/
def exprSub (x : List Char) : Expr → Expr
  | .elit v => .elit v
  | .ename y => if y = x then .elit (.vbool false) else .ename y
  | .enot e => .enot (exprSub x e)
  | .eand a b => .eand (exprSub x a) (exprSub x b)
  | .eor a b => .eor (exprSub x a) (exprSub x b)

/-- `mapME` laws: mapping a pointwise `Except.map`-related function. -/
theorem mapME_map_of (f g : α → Except Unit β) (h : β → β) (l : List α)
    (hpt : ∀ a ∈ l, g a = (f a).map h) :
    mapME g l =
      match mapME f l with
      | .error e => .error e
      | .ok bs => .ok (bs.map h) := by
  induction l with
  | nil => simp [mapME_nil]
  | cons a as ih =>
    rw [mapME_cons, mapME_cons, hpt a (List.mem_cons_self a as)]
    cases hfa : f a with
    | error er => rfl
    | ok b =>
      simp only [Except.map]
      rw [ih (fun b hb => hpt b (List.mem_cons_of_mem a hb))]
      cases mapME f as with
      | error er => rfl
      | ok bs => rfl

/-- Classification after substituting the whole-token occurrences of a
name: the name becomes `False`, everything else is untouched. -/
theorem classify_sub (x r : List Char)
    (hxname : classifyRun x = .ok (.name x)) :
    classifyRun (if r = x then FALSE else r) = (classifyRun r).map (tokSub x) := by
  by_cases hrx : r = x
  · subst hrx
    rw [if_pos rfl, hxname]
    have h1 : classifyRun FALSE = .ok (.lit (.vbool false)) := rfl
    rw [h1]
    simp [Except.map, tokSub]
  · rw [if_neg hrx]
    cases hcl : classifyRun r with
    | error er => rfl
    | ok t =>
      cases t with
      | name y =>
        have hy := classifyRun_name_inv r y hcl
        subst hy
        simp [Except.map, tokSub, hrx]
      | kand => rfl
      | kor => rfl
      | knot => rfl
      | lit v => rfl

/-- When no other run contains the failing name, the degrade step acts
on the run list as whole-token substitution. -/
theorem runs_sub (s x : List Char) (hx : x ∈ runsL s)
    (hxname : classifyRun x = .ok (.name x))
    (hnosub : ∀ r ∈ runsL s, r ≠ x → occCount r x = 0) :
    runsL (replaceL s x FALSE) = (runsL s).map (fun r => if r = x then FALSE else r) := by
  obtain ⟨hxne, hxid⟩ := mem_runsL s x hx
  rw [runsL_replaceL x hxne hxid s]
  refine List.map_congr_left ?_
  intro r hr
  by_cases hrx : r = x
  · subst hrx
    rw [if_pos rfl]
    exact replaceL_self r FALSE hxne
  · rw [if_neg hrx]
    exact replaceL_of_occCount_zero r x FALSE (hnosub r hr hrx)

/-- In the same situation, tokenization after the degrade step is the
token-level substitution of the original tokenization. -/
theorem tokenize_sub (s x : List Char) (hx : x ∈ runsL s)
    (hxname : classifyRun x = .ok (.name x))
    (hnosub : ∀ r ∈ runsL s, r ≠ x → occCount r x = 0)
    (hsep : ∀ c ∈ s, sepOK c = true) :
    tokenizeL (replaceL s x FALSE) =
      match tokenizeL s with
      | .error e => .error e
      | .ok ts => .ok (ts.map (tokSub x)) := by
  have hsep2 : ∀ c ∈ replaceL s x FALSE, sepOK c = true := by
    intro c hc
    rcases mem_replaceL s x FALSE c hc with h1 | h2
    · exact hsep c h1
    · have := FALSE_ident c h2
      simp [sepOK, this]
  rw [tokenizeL_eq_mapM _ hsep2, tokenizeL_eq_mapM _ hsep,
      runs_sub s x hx hxname hnosub]
  have key : mapME classifyRun ((runsL s).map fun r => if r = x then FALSE else r)
      = mapME (fun r => classifyRun (if r = x then FALSE else r)) (runsL s) := by
    induction runsL s with
    | nil => simp [mapME_nil]
    | cons a as ih =>
      rw [List.map_cons, mapME_cons, mapME_cons, ih]
  rw [key]
  have h2 := mapME_map_of classifyRun (fun r => classifyRun (if r = x then FALSE else r))
    (tokSub x) (runsL s) (fun r _ => classify_sub x r hxname)
  rw [h2]
  cases mapME classifyRun (runsL s) <;> rfl

theorem tokSub_kand (x : List Char) (t : Tok) :
    tokSub x t = .kand ↔ t = .kand := by
  cases t with
  | name y => simp [tokSub]; by_cases h : y = x <;> simp [h]
  | kand => simp [tokSub]
  | kor => simp [tokSub]
  | knot => simp [tokSub]
  | lit v => simp [tokSub]

theorem tokSub_kor (x : List Char) (t : Tok) :
    tokSub x t = .kor ↔ t = .kor := by
  cases t with
  | name y => simp [tokSub]; by_cases h : y = x <;> simp [h]
  | kand => simp [tokSub]
  | kor => simp [tokSub]
  | knot => simp [tokSub]
  | lit v => simp [tokSub]

/-- Parsing commutes with whole-token substitution of a name by
`False`. -/
theorem parseNotT_sub (x : List Char) (ts : List Tok) :
    parseNotT (ts.map (tokSub x)) =
      match parseNotT ts with
      | .error e => .error e
      | .ok (e, r) => .ok (exprSub x e, r.map (tokSub x)) := by
  induction ts with
  | nil => rfl
  | cons t rest ih =>
    cases t with
    | knot =>
      rw [List.map_cons]
      show parseNotT (Tok.knot :: rest.map (tokSub x)) = _
      rw [parseNotT, parseNotT, ih]
      cases parseNotT rest with
      | error er => rfl
      | ok p => rfl
    | lit v => rfl
    | kand => rfl
    | kor => rfl
    | name y =>
      rw [List.map_cons]
      by_cases hxy : y = x
      · rw [show tokSub x (Tok.name y) = Tok.lit (PyVal.vbool false) from by
          simp [tokSub, hxy]]
        rw [parseNotT, parseNotT]
        simp [exprSub, hxy]
      · rw [show tokSub x (Tok.name y) = Tok.name y from by simp [tokSub, hxy]]
        rw [parseNotT, parseNotT]
        simp [exprSub, hxy]

theorem parseAndT_sub (x : List Char) (ts : List Tok) :
    parseAndT (ts.map (tokSub x)) =
      match parseAndT ts with
      | .error e => .error e
      | .ok (e, r) => .ok (exprSub x e, r.map (tokSub x)) := by
  have key : ∀ n : Nat, ∀ ts : List Tok, ts.length ≤ n →
      parseAndT (ts.map (tokSub x)) =
        match parseAndT ts with
        | .error e => .error e
        | .ok (e, r) => .ok (exprSub x e, r.map (tokSub x)) := by
    intro n
    induction n with
    | zero =>
      intro ts hts
      have h0 : ts = [] := List.length_eq_zero.mp (Nat.le_zero.mp hts)
      subst h0
      have hA : parseAndT [] = Except.error () := by
        rw [parseAndT_unfold]
        rfl
      rw [List.map_nil, hA]
    | succ n ih =>
      intro ts hts
      cases hnt : parseNotT ts with
      | error er =>
        have h1 : parseNotT (ts.map (tokSub x)) = .error er := by
          rw [parseNotT_sub x ts, hnt]
        rw [parseAndT_unfold (ts.map (tokSub x)), h1, parseAndT_unfold ts, hnt]
      | ok p =>
        obtain ⟨e1, r1⟩ := p
        have h1 : parseNotT (ts.map (tokSub x)) = .ok (exprSub x e1, r1.map (tokSub x)) := by
          rw [parseNotT_sub x ts, hnt]
        have hcons := parseNotT_consumes ts e1 r1 hnt
        cases r1 with
        | nil =>
          rw [List.map_nil] at h1
          rw [parseAndT_unfold (ts.map (tokSub x)), h1, parseAndT_unfold ts, hnt]
          rfl
        | cons t r2 =>
          rw [List.map_cons] at h1
          cases t with
          | kand =>
            rw [show tokSub x Tok.kand = Tok.kand from rfl] at h1
            rw [parseAndT_unfold (ts.map (tokSub x)), h1, parseAndT_unfold ts, hnt]
            simp only
            rw [ih r2 (by simp only [List.length_cons] at hcons; omega)]
            cases parseAndT r2 with
            | error er => rfl
            | ok p2 => rfl
          | kor =>
            rw [show tokSub x Tok.kor = Tok.kor from rfl] at h1
            rw [parseAndT_unfold (ts.map (tokSub x)), h1, parseAndT_unfold ts, hnt]
            rfl
          | knot =>
            rw [show tokSub x Tok.knot = Tok.knot from rfl] at h1
            rw [parseAndT_unfold (ts.map (tokSub x)), h1, parseAndT_unfold ts, hnt]
            rfl
          | lit v =>
            rw [show tokSub x (Tok.lit v) = Tok.lit v from rfl] at h1
            rw [parseAndT_unfold (ts.map (tokSub x)), h1, parseAndT_unfold ts, hnt]
            rfl
          | name y =>
            by_cases hxy : y = x
            · rw [show tokSub x (Tok.name y) = Tok.lit (PyVal.vbool false) from by
                simp [tokSub, hxy]] at h1
              rw [parseAndT_unfold (ts.map (tokSub x)), h1, parseAndT_unfold ts, hnt]
              simp [tokSub, hxy]
            · rw [show tokSub x (Tok.name y) = Tok.name y from by
                simp [tokSub, hxy]] at h1
              rw [parseAndT_unfold (ts.map (tokSub x)), h1, parseAndT_unfold ts, hnt]
              simp [tokSub, hxy]
  exact key ts.length ts (le_refl _)

theorem parseOrT_sub (x : List Char) (ts : List Tok) :
    parseOrT (ts.map (tokSub x)) =
      match parseOrT ts with
      | .error e => .error e
      | .ok (e, r) => .ok (exprSub x e, r.map (tokSub x)) := by
  have key : ∀ n : Nat, ∀ ts : List Tok, ts.length ≤ n →
      parseOrT (ts.map (tokSub x)) =
        match parseOrT ts with
        | .error e => .error e
        | .ok (e, r) => .ok (exprSub x e, r.map (tokSub x)) := by
    intro n
    induction n with
    | zero =>
      intro ts hts
      have h0 : ts = [] := List.length_eq_zero.mp (Nat.le_zero.mp hts)
      subst h0
      have hA : parseAndT [] = Except.error () := by
        rw [parseAndT_unfold]
        rfl
      have hO : parseOrT [] = Except.error () := by
        rw [parseOrT_unfold, hA]
      rw [List.map_nil, hO]
    | succ n ih =>
      intro ts hts
      cases hnt : parseAndT ts with
      | error er =>
        have h1 : parseAndT (ts.map (tokSub x)) = .error er := by
          rw [parseAndT_sub x ts, hnt]
        rw [parseOrT_unfold (ts.map (tokSub x)), h1, parseOrT_unfold ts, hnt]
      | ok p =>
        obtain ⟨e1, r1⟩ := p
        have h1 : parseAndT (ts.map (tokSub x)) = .ok (exprSub x e1, r1.map (tokSub x)) := by
          rw [parseAndT_sub x ts, hnt]
        have hcons := parseAndT_consumes ts e1 r1 hnt
        cases r1 with
        | nil =>
          rw [List.map_nil] at h1
          rw [parseOrT_unfold (ts.map (tokSub x)), h1, parseOrT_unfold ts, hnt]
          rfl
        | cons t r2 =>
          rw [List.map_cons] at h1
          cases t with
          | kor =>
            rw [show tokSub x Tok.kor = Tok.kor from rfl] at h1
            rw [parseOrT_unfold (ts.map (tokSub x)), h1, parseOrT_unfold ts, hnt]
            simp only
            rw [ih r2 (by simp only [List.length_cons] at hcons; omega)]
            cases parseOrT r2 with
            | error er => rfl
            | ok p2 => rfl
          | kand =>
            rw [show tokSub x Tok.kand = Tok.kand from rfl] at h1
            rw [parseOrT_unfold (ts.map (tokSub x)), h1, parseOrT_unfold ts, hnt]
            rfl
          | knot =>
            rw [show tokSub x Tok.knot = Tok.knot from rfl] at h1
            rw [parseOrT_unfold (ts.map (tokSub x)), h1, parseOrT_unfold ts, hnt]
            rfl
          | lit v =>
            rw [show tokSub x (Tok.lit v) = Tok.lit v from rfl] at h1
            rw [parseOrT_unfold (ts.map (tokSub x)), h1, parseOrT_unfold ts, hnt]
            rfl
          | name y =>
            by_cases hxy : y = x
            · rw [show tokSub x (Tok.name y) = Tok.lit (PyVal.vbool false) from by
                simp [tokSub, hxy]] at h1
              rw [parseOrT_unfold (ts.map (tokSub x)), h1, parseOrT_unfold ts, hnt]
              simp [tokSub, hxy]
            · rw [show tokSub x (Tok.name y) = Tok.name y from by
                simp [tokSub, hxy]] at h1
              rw [parseOrT_unfold (ts.map (tokSub x)), h1, parseOrT_unfold ts, hnt]
              simp [tokSub, hxy]
  exact key ts.length ts (le_refl _)

theorem parseToks_sub (x : List Char) (ts : List Tok) :
    parseToks (ts.map (tokSub x)) =
      match parseToks ts with
      | .error e => .error e
      | .ok e => .ok (exprSub x e) := by
  rw [parseToks, parseToks, parseOrT_sub x ts]
  cases parseOrT ts with
  | error er => rfl
  | ok p =>
    obtain ⟨e, r⟩ := p
    cases r with
    | nil => rfl
    | cons t rest => rfl

/-- In an evaluation that succeeds, the unbound name `x` is never
reached, so substituting `False` for it changes nothing. -/
theorem evalE_sub_ok (env : NS) (x : List Char) (hunb : lookupNS env x = none)
    (e : Expr) (v : PyVal) (h : evalE env e = .ok v) :
    evalE env (exprSub x e) = .ok v := by
  induction e generalizing v with
  | elit w => exact h
  | ename y =>
    by_cases hxy : y = x
    · subst hxy
      simp only [evalE, hunb] at h
      exact absurd h (by simp)
    · simp only [evalE] at h
      rw [exprSub, if_neg hxy]
      simpa only [evalE] using h
  | enot e ih =>
    cases he : evalE env e with
    | error er =>
      simp only [evalE, he] at h
      exact absurd h (by simp)
    | ok v0 =>
      simp only [evalE, he] at h
      show evalE env (Expr.enot (exprSub x e)) = Except.ok v
      simp only [evalE, ih v0 he]
      exact h
  | eand a b iha ihb =>
    cases ha : evalE env a with
    | error er =>
      simp only [evalE, ha] at h
      exact absurd h (by simp)
    | ok va =>
      simp only [evalE, ha] at h
      show evalE env (Expr.eand (exprSub x a) (exprSub x b)) = Except.ok v
      simp only [evalE, iha va ha]
      by_cases htr : truthy va
      · rw [if_pos htr] at h ⊢
        exact ihb v h
      · rw [if_neg htr] at h ⊢
        exact h
  | eor a b iha ihb =>
    cases ha : evalE env a with
    | error er =>
      simp only [evalE, ha] at h
      exact absurd h (by simp)
    | ok va =>
      simp only [evalE, ha] at h
      show evalE env (Expr.eor (exprSub x a) (exprSub x b)) = Except.ok v
      simp only [evalE, iha va ha]
      by_cases htr : truthy va
      · rw [if_pos htr] at h ⊢
        exact h
      · rw [if_neg htr] at h ⊢
        exact ihb v h

/-- Expression evaluation never raises a `SyntaxError`. -/
theorem evalE_no_syn (env : NS) (e : Expr) (h : evalE env e = .error .syn) :
    False := by
  induction e with
  | elit v => simp [evalE] at h
  | ename y =>
    cases hy : lookupNS env y with
    | some v => simp [evalE, hy] at h
    | none => simp [evalE, hy] at h
  | enot e ih =>
    cases he : evalE env e with
    | ok v => simp [evalE, he] at h
    | error er =>
      simp only [evalE, he, Except.error.injEq] at h
      exact ih (by rw [he, h])
  | eand a b iha ihb =>
    cases ha : evalE env a with
    | error er =>
      simp only [evalE, ha, Except.error.injEq] at h
      exact iha (by rw [ha, h])
    | ok va =>
      simp only [evalE, ha] at h
      by_cases htr : truthy va
      · rw [if_pos htr] at h
        exact ihb h
      · rw [if_neg htr] at h
        simp at h
  | eor a b iha ihb =>
    cases ha : evalE env a with
    | error er =>
      simp only [evalE, ha, Except.error.injEq] at h
      exact iha (by rw [ha, h])
    | ok va =>
      simp only [evalE, ha] at h
      by_cases htr : truthy va
      · rw [if_pos htr] at h
        simp at h
      · rw [if_neg htr] at h
        exact ihb h

/-- Core of the amended degrade-retry property: when `x` is the only
undefined name of the expression and no other identifier run contains
`x` as a substring, `eval_selector` gives the same outcome on the
original string and on the string with `x` textually replaced by
`"False"`. -/
theorem eval_selector_subst (s : List Char) (env : NS) (x : List Char)
    (hx : x ∈ runsL s) (hxname : nameRunB x = true)
    (hunb : lookupNS env x = none)
    (honly : ∀ y ∈ runsL s, nameRunB y = true → y ≠ x → lookupNS env y ≠ none)
    (hnosub : ∀ r ∈ runsL s, r ≠ x → occCount r x = 0) :
    eval_selector s env = eval_selector (replaceL s x FALSE) env := by
  have hxcl : classifyRun x = .ok (.name x) := (nameRunB_iff x).mp hxname
  by_cases hsep : ∀ c ∈ s, sepOK c = true
  · have htokS := tokenize_sub s x hx hxcl hnosub hsep
    cases htk : tokenizeL s with
    | error er =>
      have h1 : evalPy s env = .error .syn := by simp only [evalPy, htk]
      have h2 : evalPy (replaceL s x FALSE) env = .error .syn := by
        simp only [evalPy, htokS, htk]
      rw [eval_selector_of_syn s env h1, eval_selector_of_syn _ env h2]
    | ok ts =>
      have htk' : tokenizeL (replaceL s x FALSE) = .ok (ts.map (tokSub x)) := by
        rw [htokS, htk]
      cases hp : parseToks ts with
      | error er =>
        have hp' : parseToks (ts.map (tokSub x)) = .error er := by
          rw [parseToks_sub, hp]
        have h1 : evalPy s env = .error .syn := by simp only [evalPy, htk, hp]
        have h2 : evalPy (replaceL s x FALSE) env = .error .syn := by
          simp only [evalPy, htk', hp']
        rw [eval_selector_of_syn s env h1, eval_selector_of_syn _ env h2]
      | ok e =>
        have hp' : parseToks (ts.map (tokSub x)) = .ok (exprSub x e) := by
          rw [parseToks_sub, hp]
        cases hev : evalE env e with
        | ok v =>
          have h1 : evalPy s env = .ok v := by
            simp only [evalPy, htk, hp]
            exact hev
          have h2 : evalPy (replaceL s x FALSE) env = .ok v := by
            simp only [evalPy, htk', hp']
            exact evalE_sub_ok env x hunb e v hev
          rw [eval_selector_of_ok s env v h1, eval_selector_of_ok _ env v h2]
        | error er =>
          cases er with
          | syn => exact absurd hev (fun hh => evalE_no_syn env e hh)
          | nameError y =>
            have hy := evalE_nameError_mem env e y hev
            have hymem : Tok.name y ∈ ts := parseToks_names ts e hp y hy.1
            have hmm : mapME classifyRun (runsL s) = .ok ts := by
              rw [← tokenizeL_eq_mapM s hsep]
              exact htk
            obtain ⟨r, hr, hcl⟩ := mapME_mem _ _ _ hmm _ hymem
            have hyr := classifyRun_name_inv r y hcl
            subst hyr
            have hyx : y = x := by
              by_contra hne
              exact (honly y hr ((nameRunB_iff y).mpr hcl) hne) hy.2
            subst hyx
            have h1 : evalPy s env = .error (.nameError y) := by
              simp only [evalPy, htk, hp]
              exact hev
            exact eval_selector_of_nameError s env y h1
  · push_neg at hsep
    obtain ⟨c, hc, hcbad⟩ := hsep
    have hcb : sepOK c = false := by simpa using hcbad
    obtain ⟨hxne, hxid⟩ := mem_runsL s x hx
    have hcnx : c ∉ x := by
      intro hcx
      have := hxid c hcx
      simp [sepOK, this] at hcb
    have hcs' : c ∈ replaceL s x FALSE :=
      mem_replaceL_of_not_mem_pat s x FALSE c hc hcnx
    have h1 : evalPy s env = .error .syn := by
      cases htk : tokenizeL s with
      | error er => simp only [evalPy, htk]
      | ok ts =>
        have := tokenizeL_chars s ts htk c hc
        rw [this] at hcb
        exact absurd hcb (by simp)
    have h2 : evalPy (replaceL s x FALSE) env = .error .syn := by
      cases htk : tokenizeL (replaceL s x FALSE) with
      | error er => simp only [evalPy, htk]
      | ok ts =>
        have := tokenizeL_chars _ ts htk c hcs'
        rw [this] at hcb
        exact absurd hcb (by simp)
    rw [eval_selector_of_syn s env h1, eval_selector_of_syn _ env h2]

/-- Python/YAML values as stored in a parsed recipe document. -/
inductive Val where
  | vstr (s : List Char)
  | vint (n : Int)
  | vbool (b : Bool)
  | vnull
  | vdict (entries : List (List Char × Val))
  | vlist (elems : List Val)
deriving Repr

/-- Python truthiness of a recipe value. -/
def vTruthy : Val → Bool
  | .vstr s => !s.isEmpty
  | .vint n => n != 0
  | .vbool b => b
  | .vnull => false
  | .vdict d => !d.isEmpty
  | .vlist l => !l.isEmpty

/-- Dictionary (insertion-ordered association list) operations. -/
def dGet (d : List (List Char × Val)) (k : List Char) : Option Val :=
  match d with
  | [] => none
  | (k2, v) :: rest => if k2 = k then some v else dGet rest k

def dGetD (d : List (List Char × Val)) (k : List Char) (dflt : Val) : Val :=
  (dGet d k).getD dflt

def dMem (d : List (List Char × Val)) (k : List Char) : Bool :=
  (dGet d k).isSome

/-- `d[k] = v`: update in place, or append (Python dict semantics). -/
def dSet (d : List (List Char × Val)) (k : List Char) (v : Val) :
    List (List Char × Val) :=
  match d with
  | [] => [(k, v)]
  | (k2, v2) :: rest => if k2 = k then (k2, v) :: rest else (k2, v2) :: dSet rest k v

/-- `del d[k]` (no-op when absent, matching the guarded deletions in
`get_hash_contents`). -/
def dErase (d : List (List Char × Val)) (k : List Char) : List (List Char × Val) :=
  d.filter (fun kv => kv.1 ≠ k)

/-- Substring test (Python `pat in s`). -/
def hasSubstr (s pat : List Char) : Bool :=
  pat.isPrefixOf s ||
    match s with
    | [] => false
    | _ :: cs => hasSubstr cs pat

/-- The characters of the null-marker token `"None"`. -/
def NONE4 : List Char := ['N', 'o', 'n', 'e']

/-- Modelled from the spec: `trim_empty_keys` (from `conda_build.utils`,
which is not under `src/`) — drop keys whose values are empty mappings,
empty sequences, or the null marker. -/
def isEmptyKeyVal : Val → Bool
  | .vnull => true
  | .vdict [] => true
  | .vlist [] => true
  | _ => false

def trim_empty_keys (d : List (List Char × Val)) : List (List Char × Val) :=
  d.filter (fun kv => !isEmptyKeyVal kv.2)

mutual

/-- `_trim_None_strings` (`metadata.py:198-222`), on one dictionary:
dict values recurse; string values that contain `'None'` become the null
marker; non-empty lists are filtered (of dicts, by the first element's
shape, or of strings); everything else is left alone; finally
`trim_empty_keys` drops the emptied entries.  `none` models the crash on
a heterogeneous list (`_trim_None_strings` of a non-dict, or `in` on a
non-string). -/
def trimNoneDict : List (List Char × Val) → Option (List (List Char × Val))
  | [] => some []
  | (k, v) :: rest =>
    match trimNoneVal v with
    | none => none
    | some v2 =>
      match trimNoneDict rest with
      | none => none
      | some rest2 => some ((k, v2) :: rest2)

def trimNoneVal : Val → Option Val
  | .vdict d =>
    match trimNoneDict d with
    | none => none
    | some d2 => some (.vdict (trim_empty_keys d2))
  | .vstr s => some (if hasSubstr s NONE4 then .vnull else .vstr s)
  | .vlist [] => some (.vlist [])
  | .vlist (e :: es) =>
    match e with
    | .vdict _ =>
      match trimDictList (e :: es) with
      | none => none
      | some l2 => some (.vlist l2)
    | .vstr _ =>
      match trimStrList (e :: es) with
      | none => none
      | some l2 => some (.vlist l2)
    | _ => none
  | v => some v

def trimDictList : List Val → Option (List Val)
  | [] => some []
  | .vdict d :: rest =>
    match trimNoneDict d with
    | none => none
    | some d2 =>
      match trimDictList rest with
      | none => none
      | some rest2 =>
        some (match trim_empty_keys d2 with
              | [] => rest2
              | e2 :: t2 => .vdict (e2 :: t2) :: rest2)
  | _ => none

def trimStrList : List Val → Option (List Val)
  | [] => some []
  | .vstr s :: rest =>
    match trimStrList rest with
    | none => none
    | some rest2 => some (if hasSubstr s NONE4 then rest2 else .vstr s :: rest2)
  | _ => none

end

/-- `_trim_None_strings(meta_dict)` including its final
`trim_empty_keys`. -/
def trim_None_strings (d : List (List Char × Val)) :
    Option (List (List Char × Val)) :=
  match trimNoneDict d with
  | none => none
  | some d2 => some (trim_empty_keys d2)

/-- YAML 1.1 boolean word sets (`metadata.py:311-312`). -/
def trues : List (List Char) :=
  [['y'], ['o', 'n'], ['t', 'r', 'u', 'e'], ['y', 'e', 's']]

def falses : List (List Char) :=
  [['n'], ['n', 'o'], ['f', 'a', 'l', 's', 'e'], ['o', 'f', 'f']]

/-- `str.lower()` on the ASCII field values handled here. -/
def strLower (s : List Char) : List Char := s.map Char.toLower

/-- `default_structs` (`metadata.py:314-356`): typed defaults, with the
type constructors already applied as `get_value` does
(`list()` ↦ empty list, `bool()` ↦ false, `text_type()` ↦ empty string,
`dict()` ↦ empty dict). -/
def default_structs : List (List Char × Val) :=
  [("build/entry_points".toList, .vlist []),
   ("build/features".toList, .vlist []),
   ("source/patches".toList, .vlist []),
   ("build/script".toList, .vlist []),
   ("build/script_env".toList, .vlist []),
   ("build/run_exports".toList, .vlist []),
   ("build/track_features".toList, .vlist []),
   ("build/osx_is_app".toList, .vbool false),
   ("build/preserve_egg_dir".toList, .vbool false),
   ("build/binary_relocation".toList, .vbool false),
   ("build/noarch".toList, .vstr []),
   ("build/noarch_python".toList, .vbool false),
   ("build/detect_binary_files_with_prefix".toList, .vbool false),
   ("build/skip".toList, .vbool false),
   ("build/skip_compile_pyc".toList, .vlist []),
   ("build/preferred_env".toList, .vstr []),
   ("build/preferred_env_executable_paths".toList, .vlist []),
   ("build/ignore_run_exports".toList, .vlist []),
   ("build/requires_features".toList, .vdict []),
   ("build/provides_features".toList, .vdict []),
   ("requirements/build".toList, .vlist []),
   ("requirements/host".toList, .vlist []),
   ("requirements/run".toList, .vlist []),
   ("requirements/conflicts".toList, .vlist []),
   ("requirements/run_constrained".toList, .vlist []),
   ("test/requires".toList, .vlist []),
   ("test/files".toList, .vlist []),
   ("test/source_files".toList, .vlist []),
   ("test/commands".toList, .vlist []),
   ("test/imports".toList, .vlist []),
   ("package/version".toList, .vstr []),
   ("build/string".toList, .vstr []),
   ("build/pin_depends".toList, .vstr []),
   ("source/svn_rev".toList, .vstr []),
   ("source/git_tag".toList, .vstr []),
   ("source/git_branch".toList, .vstr []),
   ("source/md5".toList, .vstr []),
   ("source/git_rev".toList, .vstr []),
   ("source/path".toList, .vstr []),
   ("source/git_url".toList, .vstr []),
   ("app/own_environment".toList, .vbool false)]

/-- `str.split(c)` for a one-character separator. -/
def splitOnC (sep : Char) (s : List Char) : List (List Char) :=
  match s with
  | [] => [[]]
  | c :: cs =>
    if c = sep then [] :: splitOnC sep cs
    else
      match splitOnC sep cs with
      | [] => [[c]]
      | h :: t => (c :: h) :: t

/-- `name.split('/')`. -/
def splitSlash (s : List Char) : List (List Char) := splitOnC '/' s

/-- `MetaData.get_section` (`metadata.py:888-889`): `self.meta.get(section, {})`. -/
def get_section (meta : List (List Char × Val)) (sec : List Char) : Val :=
  dGetD meta sec (.vdict [])

/-- The yaml-1.1 boolean coercion at the end of `get_value`
(`metadata.py:939-944`). -/
def coerceBool (value : Val) : Val :=
  match value with
  | .vstr s =>
    if trues.contains (strLower s) then .vbool true
    else if falses.contains (strLower s) then .vbool false
    else .vstr s
  | v => v

/-- `section_data.get(key, default)` followed by the boolean coercion;
a Python `default` of `None` is the `vnull` value. -/
def valueFrom (d : List (List Char × Val)) (key : List Char)
    (dflt : Option Val) : Option Val :=
  some (coerceBool ((dGet d key).getD (dflt.getD .vnull)))

/-- The body of `get_value` after the field name has been split
(`metadata.py:912-937`).  `none` models a raised `AssertionError` /
`IndexError`. -/
def get_value_go (meta : List (List Char × Val)) (sec : List Char)
    (index : Option Nat) (key : List Char) (default : Option Val)
    (autotype : Bool) : Option Val :=
  let field := sec ++ '/' :: key
  let dflt :=
    if autotype && default.isNone && dMem default_structs field then
      dGet default_structs field
    else default
  match get_section meta sec with
  | .vdict d =>
    match index with
    | none => valueFrom d key dflt
    | some i => if i = 0 then valueFrom d key dflt else none
  | .vlist l =>
    let i := index.getD 0
    match l with
    | [] => valueFrom [] key dflt
    | _ :: _ =>
      match l.get? i with
      | some (.vdict d) => valueFrom d key dflt
      | some _ => none
      | none => none
  | _ => none

/-- `MetaData.get_value` (`metadata.py:891-945`).  The index of a
three-part name is parsed on decimal naturals (recipe field paths use
only natural indices); `none` models a raised assertion. -/
def get_value (meta : List (List Char × Val)) (name : List Char)
    (default : Option Val) (autotype : Bool) : Option Val :=
  match splitSlash name with
  | [sec, key] => get_value_go meta sec none key default autotype
  | [sec, index, key] =>
    if sec = "source".toList then
      if index ≠ [] ∧ index.all Char.isDigit then
        get_value_go meta sec (some (natOfDigits index)) key default autotype
      else none
    else none
  | _ => none

/-- Association-list lookup with default, for non-`Val` tables. -/
def lookupD {α : Type} (d : List (List Char × α)) (k : List Char) (dflt : α) : α :=
  match d with
  | [] => dflt
  | (k2, v) :: rest => if k2 = k then v else lookupD rest k dflt

def lookupO {α : Type} (d : List (List Char × α)) (k : List Char) : Option α :=
  match d with
  | [] => none
  | (k2, v) :: rest => if k2 = k then some v else lookupO rest k

def splitSpace (s : List Char) : List (List Char) := splitOnC ' ' s

/-- Lexicographic comparison on code points, as Python compares `str`. -/
def lexLe (a b : List Char) : Bool :=
  match a, b with
  | [], _ => true
  | _ :: _, [] => false
  | x :: xs, y :: ys => if x = y then lexLe xs ys else decide (x.toNat < y.toNat)

/-- Insertion sort by `lexLe`, modelling Python `sorted` on strings
(stability is irrelevant at distinct keys). -/
def insortStr (x : List Char) : List (List Char) → List (List Char)
  | [] => [x]
  | y :: ys => if lexLe x y then x :: y :: ys else y :: insortStr x ys

def sortStr (l : List (List Char)) : List (List Char) :=
  match l with
  | [] => []
  | x :: xs => insortStr x (sortStr xs)

/-- Python `key in value` for a recipe value (`in` is key membership on
dicts, element membership on lists, substring on strings); `none` models
the `TypeError` on a non-container. -/
def vContains (v : Val) (k : List Char) : Option Bool :=
  match v with
  | .vdict d => some (dMem d k)
  | .vlist l => some (l.any (fun e => match e with | .vstr s => s == k | _ => false))
  | .vstr s => some (hasSubstr s k)
  | _ => none

/-- `del value[k]`; `none` models the `TypeError` on a non-dict. -/
def vDelKey (v : Val) (k : List Char) : Option Val :=
  match v with
  | .vdict d => some (.vdict (dErase d k))
  | _ => none

/-- `value.get(k, dflt)`; `none` models the `AttributeError` on a
non-dict. -/
def vGetD (v : Val) (k : List Char) (dflt : Val) : Option Val :=
  match v with
  | .vdict d => some (dGetD d k dflt)
  | _ => none

/-- `value[k] = nv`; `none` models the `TypeError` on a non-dict. -/
def vSetKey (v : Val) (k : List Char) (nv : Val) : Option Val :=
  match v with
  | .vdict d => some (.vdict (dSet d k nv))
  | _ => none

/-- `str(value)` for the scalar values this code applies it to. -/
def pyStr (v : Val) : Option (List Char) :=
  match v with
  | .vstr s => some s
  | .vbool true => some "True".toList
  | .vbool false => some "False".toList
  | .vnull => some "None".toList
  | .vint n => some (if n < 0 then '-' :: Nat.toDigits 10 n.natAbs else Nat.toDigits 10 n.natAbs)
  | _ => none

/-- Sort dictionary entries by key (`json.dumps(..., sort_keys=True)`). -/
def sortKeys (d : List (List Char × Val)) : List (List Char × Val) :=
  match d with
  | [] => []
  | kv :: rest => insortKV kv (sortKeys rest)
where
  insortKV (kv : List Char × Val) : List (List Char × Val) → List (List Char × Val)
    | [] => [kv]
    | kv2 :: rest => if lexLe kv.1 kv2.1 then kv :: kv2 :: rest else kv2 :: insortKV kv rest

theorem insortKV_perm (kv : List Char × Val) (l : List (List Char × Val)) :
    (sortKeys.insortKV kv l).Perm (kv :: l) := by
  induction l with
  | nil => simp [sortKeys.insortKV]
  | cons kv2 rest ih =>
    rw [sortKeys.insortKV]
    split
    · exact List.Perm.refl _
    · exact ((ih.cons kv2).trans (List.Perm.swap kv kv2 rest)).symm.symm

theorem sortKeys_perm (d : List (List Char × Val)) : (sortKeys d).Perm d := by
  induction d with
  | nil => simp [sortKeys]
  | cons kv rest ih =>
    rw [sortKeys]
    exact (insortKV_perm kv (sortKeys rest)).trans (ih.cons kv)

theorem sortKeys_sizeOf (d : List (List Char × Val)) :
    sizeOf (sortKeys d) = sizeOf d :=
  (sortKeys_perm d).sizeOf_eq_sizeOf

mutual

/-- `json.dumps(v, sort_keys=True)` with default separators; string
escaping is not modelled (recipe keys and values are escape-free), which
keeps serialization injective on them. -/
def jsonVal : Val → List Char
  | .vstr s => '"' :: (s ++ ['"'])
  | .vint n => if n < 0 then '-' :: Nat.toDigits 10 n.natAbs else Nat.toDigits 10 n.natAbs
  | .vbool true => "true".toList
  | .vbool false => "false".toList
  | .vnull => "null".toList
  | .vdict d => '\x7b' :: (jsonEntries (sortKeys d) ++ ['\x7d'])
  | .vlist l => '[' :: (jsonElems l ++ [']'])
termination_by v => sizeOf v
decreasing_by all_goals (simp_wf <;> (try rw [sortKeys_sizeOf]) <;> omega)

def jsonEntries : List (List Char × Val) → List Char
  | [] => []
  | [(k, v)] => '"' :: (k ++ ['"', ':', ' '] ++ jsonVal v)
  | (k, v) :: kv :: rest =>
    '"' :: (k ++ ['"', ':', ' '] ++ jsonVal v ++ [',', ' '] ++ jsonEntries (kv :: rest))
termination_by l => sizeOf l
decreasing_by all_goals (simp_wf <;> omega)

def jsonElems : List Val → List Char
  | [] => []
  | [v] => jsonVal v
  | v :: w :: rest => jsonVal v ++ [',', ' '] ++ jsonElems (w :: rest)
termination_by l => sizeOf l
decreasing_by all_goals (simp_wf <;> omega)

end

/-- The SHA-1 accumulator is modelled as an accumulating digest over the
byte stream; the claims checked here depend only on the digest being a
function of the fed bytes, never on the concrete SHA-1 permutation. -/
def sha1Upd (st : Nat) (bytes : List Char) : Nat :=
  bytes.foldl (fun a c => (a * 131 + c.toNat) % 2 ^ 160) st

def sha1Init : Nat := 5381

def hexChar (n : Nat) : Char :=
  if n < 10 then Char.ofNat ('0'.toNat + n) else Char.ofNat ('a'.toNat + (n - 10))

/-- 40-hex-digit rendering of the digest (`hexdigest()`). -/
def hexDigits : Nat → Nat → List Char
  | 0, _ => []
  | w + 1, n => hexDigits w (n / 16) ++ [hexChar (n % 16)]

def hexdigest (st : Nat) : List Char := hexDigits 40 st

/-- The run-exports declaration of an output: `meta['build']['run_exports']`
is either a flat list of dep specs or a dict with `strong`/`weak` lists. -/
inductive RunExports where
  | rlist (deps : List (List Char))
  | rdict (strong weak : List (List Char))
deriving Repr, DecidableEq

/-- One rendered output as the graph checks see it: its package name, its
`requirements` section (environment name → dep spec strings), its
run-exports, and its finalized `build_id()` string. -/
structure MetaRec where
  name : List Char
  requirements : List (List Char × List (List Char))
  run_exports : RunExports
  build_id : List Char
deriving Repr, DecidableEq

/-- `_get_all_dependencies` (`metadata.py:234-238`). -/
def _get_all_dependencies (m : MetaRec) (envs : List (List Char)) :
    List (List Char) :=
  envs.flatMap (fun e => lookupD m.requirements e [])

/-- The default `envs=('host', 'build', 'run')` of `_get_all_dependencies`. -/
def envsHBR : List (List Char) := ["host".toList, "build".toList, "run".toList]

/-- The `envs = 'build', 'host', 'run'` of `ensure_matching_hashes`. -/
def envsBHR : List (List Char) := ["build".toList, "host".toList, "run".toList]

/-- `m.name() == dep or dep.startswith(m.name() + ' ')`
(`metadata.py:245-248`). -/
def depMatches (nm dep : List Char) : Bool :=
  dep == nm || (nm ++ [' ']).isPrefixOf dep

/-- The mutual-dependency test of one pair in
`check_circular_dependencies`. -/
def mutualDep (m om : MetaRec) : Bool :=
  (_get_all_dependencies om envsHBR).any (depMatches m.name) &&
    (_get_all_dependencies m envsHBR).any (depMatches om.name)

/-- The `pairs` list of `check_circular_dependencies`: each later output
mutually dependent with an earlier one, earlier-first. -/
def ccdPairs : List MetaRec → List (List Char × List Char)
  | [] => []
  | m :: rest =>
    (rest.filter (fun om => mutualDep m om)).map (fun om => (m.name, om.name))
      ++ ccdPairs rest

/-- `"    {0} <-> {1}\n"`. -/
def ccdLine (p : List Char × List Char) : List Char :=
  "    ".toList ++ p.1 ++ " <-> ".toList ++ p.2 ++ ['\n']

/-- `check_circular_dependencies` (`metadata.py:241-254`): `some msg`
models the raised `RecipeError(msg)`, `none` a plain return. -/
def check_circular_dependencies (render_order : List MetaRec) :
    Option (List Char) :=
  match h : ccdPairs render_order with
  | [] => none
  | _ :: _ =>
    some ("Circular dependencies in recipe: \n".toList
      ++ ((ccdPairs render_order).map ccdLine).flatten)

/-- `om.meta.get('build', \x7b\x7d).get('run_exports', [])` flattened as
`ensure_matching_hashes` does (`metadata.py:262-264`). -/
def flatRunExports (r : RunExports) : List (List Char) :=
  match r with
  | .rlist l => l
  | .rdict s w => s ++ w

/-- The deps scanned for consumer `om` in `ensure_matching_hashes`. -/
def emhDeps (om : MetaRec) : List (List Char) :=
  _get_all_dependencies om envsBHR ++ flatRunExports om.run_exports

/-- The per-dep test of `ensure_matching_hashes` (`metadata.py:266-267`):
`dep.startswith(m.name() + ' ') and len(dep.split(' ')) == 3 and
dep.split(' ')[-1] != m.build_id()`. -/
def emhBadDep (m : MetaRec) (dep : List Char) : Bool :=
  (m.name ++ [' ']).isPrefixOf dep && (splitSpace dep).length == 3
    && ((splitSpace dep).getLastD [] != m.build_id)

/-- The `problemos` list: one `(producer, consumer)` entry per offending
dep, over all ordered pairs of distinct outputs.  Distinctness of the two
loop variables (`if m != om`) is positional: `output_metadata_map` holds
one object per output. -/
def emhProblemos (oms : List MetaRec) : List (List Char × List Char) :=
  (oms.enum.flatMap (fun p =>
    oms.enum.flatMap (fun q =>
      if p.1 ≠ q.1 then
        ((emhDeps q.2).filter (emhBadDep p.2)).map (fun _ => (p.2.name, q.2.name))
      else [])))

def emhLine (p : List Char × List Char) : List Char :=
  "Mismatching package: ".toList ++ p.1 ++ "; consumer package: ".toList
    ++ p.2 ++ ['\n']

/-- `ensure_matching_hashes` (`metadata.py:257-279`): `some msg` models
the raised `RecipeError`, `none` a plain return. -/
def ensure_matching_hashes (output_metadata : List MetaRec) :
    Option (List Char) :=
  match h : emhProblemos output_metadata with
  | [] => none
  | _ :: _ =>
    some (("Mismatching hashes in recipe. Exact pins in dependencies "
      ++ "that contribute to the hash often cause this. Can you "
      ++ "change one or more exact pins to version bound constraints?\n"
      ++ "Involved packages were:\n").toList
      ++ ((emhProblemos output_metadata).map emhLine).flatten)

/-- Python `set(a) != set(b)` on lists of strings, as a Bool equality of
element sets. -/
def eqAsSet (a b : List (List Char)) : Bool :=
  a.all (fun x => b.contains x) && b.all (fun x => a.contains x)

/-- Python `repr` of a list of strings, as interpolated into the
`sys.exit` message of `parse_until_resolved`. -/
def reprItems : List (List Char) → List Char
  | [] => []
  | [s] => '\'' :: (s ++ ['\''])
  | s :: t :: rest => '\'' :: (s ++ ['\'', ',', ' '] ++ reprItems (t :: rest))

def reprStrList (l : List (List Char)) : List Char :=
  '[' :: (reprItems l ++ [']'])

/-- The `while set(undefined_jinja_vars) != set(self.undefined_jinja_vars)`
loop of `parse_until_resolved` (`metadata.py:842-847`).  `parse_again` is
an external re-parse of the recipe; it is modelled by an oracle giving the
`self.undefined_jinja_vars` recorded by the k-th lenient parse.  The state
is `(undefined_jinja_vars, self.undefined_jinja_vars, k)`; `none` means
the loop has not exited within `fuel` tests (the source has no termination
guarantee of its own). -/
def purLoop (oracle : Nat → List (List Char)) :
    Nat → List (List Char) → List (List Char) → Nat →
    Option (List (List Char) × List (List Char) × Nat)
  | 0, _, _, _ => none
  | fuel + 1, uv, selfuv, k =>
    if eqAsSet uv selfuv then some (uv, selfuv, k)
    else purLoop oracle fuel selfuv (oracle k) (k + 1)

/-- The observable outcome of `parse_until_resolved`: the
`permit_undefined_jinja` flag of each `parse_again` call in order, and the
`sys.exit` message if the call aborted. -/
structure PURResult where
  calls : List Bool
  fatal : Option (List Char)
deriving Repr, DecidableEq

/-- `parse_until_resolved` (`metadata.py:829-856`): one lenient parse,
the fixpoint loop, a `sys.exit` when undefined variables remain, and
otherwise one final strict parse. -/
def parse_until_resolved (fuel : Nat) (oracle : Nat → List (List Char)) :
    Option PURResult :=
  match purLoop oracle fuel [] (oracle 0) 1 with
  | none => none
  | some (uv, selfuv, k) =>
    if uv.isEmpty then some ⟨List.replicate k true ++ [false], none⟩
    else some ⟨List.replicate k true,
      some ("Undefined Jinja2 variables remain (".toList ++ reprStrList selfuv
        ++ ").  Please enable source downloading and try again.".toList)⟩

/-- The key dicts of `output_metadata_map` in `toposort`: whether the
output dict has a `name` entry and a `type` entry. -/
structure OutKey where
  name : Option (List Char)
  type : Option (List Char)
deriving Repr, DecidableEq

/-- Python scalars as compared by `==` inside `toposort`: comparing a
`str` against an `int` is well-defined and always `False`. -/
inductive PyScalar where
  | pstr (s : List Char)
  | pint (n : Nat)

def pyScalarEq : PyScalar → PyScalar → Bool
  | .pstr a, .pstr b => a == b
  | .pint a, .pint b => a == b
  | _, _ => false

def CONDA : List Char := "conda".toList

/-- `output_d.get('type', 'conda') == 'conda'`. -/
def isCondaKey (k : OutKey) : Bool := (k.type.getD CONDA) == CONDA

/-- Modelled from the spec: `_toposort` (imported from
`conda_interface`, not under `src/`) — a topological sort of the
adjacency dict, ties broken by insertion order: repeatedly emit the first
node all of whose dependencies are already emitted. -/
def topoGo : Nat → List (List Char × List (List Char)) → List (List Char) →
    List (List Char)
  | 0, _, done => done
  | fuel + 1, g, done =>
    match g.find? (fun kv => kv.2.all (fun d => done.contains d)) with
    | some (n, _) => topoGo fuel (g.filter (fun kv => kv.1 ≠ n)) (done ++ [n])
    | none => done

def _toposortS (g : List (List Char × List (List Char))) : List (List Char) :=
  topoGo g.length g []

/-- First-occurrence deduplication, modelling insertion into the final
`OrderedDict` keyed by the output dicts. -/
def dedupKeys (l : List OutKey) : List OutKey :=
  match l with
  | [] => []
  | k :: rest => k :: (dedupKeys rest).filter (fun k2 => k2 ≠ k)

/-- `toposort` (`metadata.py:527-565`).  `output_metadata_map` is the
ordered map from output dict to its rendered metadata, the latter
represented by the dep specs its `requirements/<phase>` section yields;
the function returns the keys of the resulting `OrderedDict` in order.
In the `endorder` extension the source compares `k['name']` (a `str`)
against `pkgname` (an `int` index from `endorder`) with Python `==`,
rendered here through `pyScalarEq`. -/
def toposort (output_metadata_map : List (OutKey × List (List Char))) :
    List OutKey :=
  let these_packages := output_metadata_map.filterMap
    (fun p => if isCondaKey p.1 then some (p.1.name.getD []) else none)
  let topodict := output_metadata_map.filterMap
    (fun p =>
      if isCondaKey p.1 then
        some (p.1.name.getD [],
          (p.2.map (fun dep => (splitSpace dep).headD [])).filter
            (fun d => these_packages.contains d))
      else none)
  let endorder := output_metadata_map.enum.filterMap
    (fun p => if isCondaKey p.2.1 then none else some p.1)
  let topo_order := _toposortS topodict
  let keys1 := topo_order.flatMap (fun pkgname =>
    (output_metadata_map.map Prod.fst).filter
      (fun k => k.name.isSome && (k.name.getD [] == pkgname)))
  let keys2 := endorder.flatMap (fun idx =>
    (output_metadata_map.map Prod.fst).filter
      (fun k => (k.name.isSome
          && pyScalarEq (.pstr (k.name.getD [])) (.pint idx))
        || k.name.isNone))
  dedupKeys (keys1 ++ keys2)

def KREQS : List Char := "requirements".toList
def KBUILD : List Char := "build".toList
def KRUN : List Char := "run".toList
def KSOURCE : List Char := "source".toList
def KEXTRA : List Char := "extra".toList
def KNUMBER : List Char := "number".toList
def KSTRING : List Char := "string".toList
def KNOARCH : List Char := "noarch".toList
def KNOARCHPY : List Char := "noarch_python".toList
def KCTSF : List Char := "copy_test_source_files".toList

/-- The build-requirement exclusion of `get_hash_contents`
(`metadata.py:1045-1049`): `'\x7b\x7d[\\s$]?.*'.format(exc)` anchored by
`match` reduces, for the plain package names `ignore_version` holds, to a
prefix test.  Requirements are a list of dep-spec strings; `none` models
the crash on anything else. -/
def filterReqs (excludes : List (List Char)) (v : Val) : Option Val :=
  match v with
  | .vlist l =>
    match filterReqsL excludes l with
    | none => none
    | some l2 => some (.vlist l2)
  | _ => none
where
  filterReqsL (excludes : List (List Char)) :
      List Val → Option (List Val)
    | [] => some []
    | .vstr s :: rest =>
      match filterReqsL excludes rest with
      | none => none
      | some r2 =>
        some (if excludes.any (fun exc => exc.isPrefixOf s) then r2
              else .vstr s :: r2)
    | _ => none

/-- `if k in v: del v[k]` as applied to `composite['build']`
(`metadata.py:1056-1061`). -/
def delIfHasKey (v : Val) (k : List Char) : Option Val :=
  match vContains v k with
  | none => none
  | some true => vDelKey v k
  | some false => some v

/-- The chained removal of `number`, `string`, `noarch`,
`noarch_python` from the build section. -/
def ghcBuildTrim (v : Val) : Option Val :=
  match delIfHasKey v KNUMBER with
  | none => none
  | some v1 =>
    match delIfHasKey v1 KSTRING with
    | none => none
    | some v2 =>
      match delIfHasKey v2 KNOARCH with
      | none => none
      | some v3 => delIfHasKey v3 KNOARCHPY

/-- `if key in composite['requirements'] and not composite['requirements'].get(key): del`
(`metadata.py:1066-1068`). -/
def trimReqKey (rv : Val) (k : List Char) : Option Val :=
  match vContains rv k with
  | none => none
  | some false => some rv
  | some true =>
    match vGetD rv k .vnull with
    | none => none
    | some kv => if vTruthy kv then some rv else vDelKey rv k

mutual

/-- Recursive empty-key trimming of the final composite.  Modelled from
the spec: `trim_empty_keys` (`conda_build.utils`, not under `src/`)
recurses into nested dict values and then drops the empty entries of each
dict; it does not descend into lists. -/
def trimDeepEntries : List (List Char × Val) → List (List Char × Val)
  | [] => []
  | (k, v) :: rest => (k, trimDeepVal v) :: trimDeepEntries rest

def trimDeepVal : Val → Val
  | .vdict d => .vdict (trim_empty_keys (trimDeepEntries d))
  | v => v

end

def trim_empty_deep (d : List (List Char × Val)) : List (List Char × Val) :=
  trim_empty_keys (trimDeepEntries d)

/-- The `copy_test_source_files` coercion of `get_hash_contents`
(`metadata.py:1052-1054`): `str(...).lower() == 'true'` when the key is
present; `some none` means no `extra` entry is added. -/
def ghcExtraFlag (extraSec : Val) (hasCtsf : Bool) : Option (Option Bool) :=
  if hasCtsf then
    match vGetD extraSec KCTSF .vnull with
    | none => none
    | some ctsfVal =>
      match pyStr ctsfVal with
      | none => none
      | some s => some (some (strLower s == "true".toList))
  else some none

/-- `MetaData.get_hash_contents` (`metadata.py:1030-1104`).  The
filesystem walk that collects `file_paths` is outside the recipe dict and
enters as the `file_paths` argument; `HashableDict` wrapping and
`copy.copy` are identities in a functional model.  `none` models a raised
exception. -/
def get_hash_contents (ignore_version : List (List Char))
    (meta : List (List Char × Val)) (file_paths : List (List Char)) :
    Option (List (List Char × Val) × List (List Char)) :=
  let composite0 : List (List Char × Val) :=
    [(KREQS, get_section meta KREQS), (KBUILD, get_section meta KBUILD)]
  let composite1 :=
    if vTruthy (get_section meta KSOURCE) then
      dSet composite0 KSOURCE (get_section meta KSOURCE)
    else composite0
  let requirements := dGetD composite1 KREQS (.vdict [])
  match vGetD requirements KBUILD (.vlist []) with
  | none => none
  | some build_reqs0 =>
    match (if ignore_version.isEmpty then some build_reqs0
           else filterReqs ignore_version build_reqs0) with
    | none => none
    | some build_reqs =>
      match vSetKey requirements KBUILD build_reqs with
      | none => none
      | some requirements2 =>
        let composite2 := dSet composite1 KREQS requirements2
        match vContains (get_section meta KEXTRA) KCTSF with
        | none => none
        | some hasCtsf =>
          match ghcExtraFlag (get_section meta KEXTRA) hasCtsf with
          | none => none
          | some flag? =>
            let composite3 :=
              match flag? with
              | some flag =>
                dSet composite2 KEXTRA (.vdict [(KCTSF, .vbool flag)])
              | none => composite2
            match ghcBuildTrim (dGetD composite3 KBUILD .vnull) with
            | none => none
            | some buildv =>
              let composite4 := dSet composite3 KBUILD buildv
              let composite5 :=
                if vTruthy buildv then composite4
                else dErase composite4 KBUILD
              match trimReqKey (dGetD composite5 KREQS .vnull) KBUILD with
              | none => none
              | some rv1 =>
                match trimReqKey rv1 KRUN with
                | none => none
                | some rv2 =>
                  let composite6 := dSet composite5 KREQS rv2
                  some (trim_empty_deep composite6, sortStr file_paths)

/-- Structural list `mapM` over `Option`. -/
def mapMO {α β : Type} (f : α → Option β) : List α → Option (List β)
  | [] => some []
  | x :: xs =>
    match f x with
    | none => none
    | some y =>
      match mapMO f xs with
      | none => none
      | some ys => some (y :: ys)

/-- `MetaData.hash_dependencies` (`metadata.py:1106-1123`).  `fs` maps an
auxiliary file path to its byte contents; `recipe_path_present` is the
truthiness of `self.path or ...parent_recipe...get('path')`. -/
def hash_dependencies (hash_length : Nat) (ignore_version : List (List Char))
    (meta : List (List Char × Val)) (file_paths : List (List Char))
    (fs : List (List Char × List Char)) (recipe_path_present : Bool) :
    Option (List Char) :=
  match get_hash_contents ignore_version meta file_paths with
  | none => none
  | some (recipe_input, sorted_paths) =>
    let h1 := sha1Upd sha1Init (jsonVal (.vdict recipe_input))
    match (if recipe_path_present then mapMO (fun p => lookupO fs p) sorted_paths
           else some []) with
    | none => none
    | some contents =>
      let h2 := contents.foldl (fun h b => sha1Upd h b) h1
      some (List.take (hash_length + 1) ('h' :: hexdigest h2))

mutual

/-- The amended-spec reading of the normalization pass, written from its
words: remove exactly the string values containing the null-marker token
as a substring (recursively through nested mappings and homogeneous
lists), leave every other string value unchanged, and afterwards remove
mappings and sequences that became empty.  `specTrimValS v = some none`
means the value itself disappears; the outer `none` keeps the crash
domain of the source on heterogeneous lists. -/
def specTrimValS : Val → Option (Option Val)
  | .vstr s => some (if hasSubstr s NONE4 then none else some (.vstr s))
  | .vnull => some none
  | .vint n => some (some (.vint n))
  | .vbool b => some (some (.vbool b))
  | .vdict d =>
    match specTrimDictS d with
    | none => none
    | some [] => some none
    | some (e :: t) => some (some (.vdict (e :: t)))
  | .vlist [] => some none
  | .vlist (e :: es) =>
    match e with
    | .vdict _ =>
      match specTrimDListS (e :: es) with
      | none => none
      | some [] => some none
      | some (x :: l) => some (some (.vlist (x :: l)))
    | .vstr _ =>
      match specTrimSListS (e :: es) with
      | none => none
      | some [] => some none
      | some (x :: l) => some (some (.vlist (x :: l)))
    | _ => none

def specTrimDictS : List (List Char × Val) → Option (List (List Char × Val))
  | [] => some []
  | (k, v) :: rest =>
    match specTrimValS v with
    | none => none
    | some v? =>
      match specTrimDictS rest with
      | none => none
      | some rest2 =>
        some (match v? with
              | none => rest2
              | some v2 => (k, v2) :: rest2)

def specTrimDListS : List Val → Option (List Val)
  | [] => some []
  | .vdict d :: rest =>
    match specTrimDictS d with
    | none => none
    | some d2 =>
      match specTrimDListS rest with
      | none => none
      | some rest2 =>
        some (match d2 with
              | [] => rest2
              | e :: t => .vdict (e :: t) :: rest2)
  | _ => none

def specTrimSListS : List Val → Option (List Val)
  | [] => some []
  | .vstr s :: rest =>
    match specTrimSListS rest with
    | none => none
    | some rest2 => some (if hasSubstr s NONE4 then rest2 else .vstr s :: rest2)
  | _ => none

end

theorem trim_empty_keys_cons (k : List Char) (v : Val)
    (rest : List (List Char × Val)) :
    trim_empty_keys ((k, v) :: rest) =
      if isEmptyKeyVal v then trim_empty_keys rest
      else (k, v) :: trim_empty_keys rest := by
  simp only [trim_empty_keys, List.filter]
  cases h : isEmptyKeyVal v <;> simp

theorem specTrimSListS_eq (l : List Val) : specTrimSListS l = trimStrList l := by
  induction l with
  | nil => rfl
  | cons e rest ih =>
    cases e <;> simp only [specTrimSListS, trimStrList, ih]

theorem specTrimDictS_eq (a : List (List Char × Val)) :
    specTrimDictS a = (trimNoneDict a).map trim_empty_keys := by
  refine trimNoneDict.induct
    (fun d => specTrimDictS d = (trimNoneDict d).map trim_empty_keys)
    (fun v => specTrimValS v =
      (trimNoneVal v).map (fun v2 => if isEmptyKeyVal v2 then none else some v2))
    (fun l => specTrimDListS l = trimDictList l)
    ?_ ?_ ?_ ?_ ?_ ?_ ?_ ?_ ?_ ?_ ?_ ?_ ?_ ?_ ?_ ?_ ?_ ?_ ?_ a
  · intro d h ih
    rw [h] at ih
    simp only [specTrimValS, trimNoneVal, h, ih, Option.map_none']
  · intro d rest2 h ih
    rw [h] at ih
    simp only [Option.map_some'] at ih
    simp only [specTrimValS, trimNoneVal, h, ih, Option.map_some']
    cases htr : trim_empty_keys rest2 with
    | nil => simp [isEmptyKeyVal, Option.map_some', Option.map_none']
    | cons e t => simp [isEmptyKeyVal, Option.map_some', Option.map_none']
  · intro s
    simp only [specTrimValS, trimNoneVal, Option.map_some']
    cases hs : hasSubstr s NONE4 <;> simp [isEmptyKeyVal, Option.map_some', Option.map_none']
  · simp [specTrimValS, trimNoneVal, isEmptyKeyVal]
  · intro es entries h ih
    rw [h] at ih
    simp only [specTrimValS, trimNoneVal, h, ih, Option.map_none']
  · intro es entries l2 h ih
    rw [h] at ih
    simp only [specTrimValS, trimNoneVal, h, ih, Option.map_some']
    cases l2 with
    | nil => simp [isEmptyKeyVal, Option.map_some', Option.map_none']
    | cons x l => simp [isEmptyKeyVal, Option.map_some', Option.map_none']
  · intro es s h
    simp only [specTrimValS, trimNoneVal, h, specTrimSListS_eq, Option.map_none']
  · intro es s l2 h
    simp only [specTrimValS, trimNoneVal, h, specTrimSListS_eq, Option.map_some']
    cases l2 with
    | nil => simp [isEmptyKeyVal, Option.map_some', Option.map_none']
    | cons x l => simp [isEmptyKeyVal, Option.map_some', Option.map_none']
  · intro e es hnd hns
    cases e with
    | vdict d => exact absurd rfl (hnd d)
    | vstr s => exact absurd rfl (hns s)
    | vint n => simp [specTrimValS, trimNoneVal]
    | vbool b => simp [specTrimValS, trimNoneVal]
    | vnull => simp [specTrimValS, trimNoneVal]
    | vlist l => simp [specTrimValS, trimNoneVal]
  · intro v hnd hns hne hnc
    cases v with
    | vdict d => exact absurd rfl (hnd d)
    | vstr s => exact absurd rfl (hns s)
    | vlist l =>
      cases l with
      | nil => exact absurd rfl hne
      | cons e es => exact absurd rfl (hnc e es)
    | vint n => simp [specTrimValS, trimNoneVal, isEmptyKeyVal]
    | vbool b => simp [specTrimValS, trimNoneVal, isEmptyKeyVal]
    | vnull => simp [specTrimValS, trimNoneVal, isEmptyKeyVal]
  · rfl
  · intro k2 v rest h ihv
    rw [h] at ihv
    simp only [Option.map_none'] at ihv
    simp only [specTrimDictS, trimNoneDict, h, ihv, Option.map_none']
  · intro k2 v rest v2 hv hrest ihv ihr
    rw [hv] at ihv
    rw [hrest] at ihr
    simp only [Option.map_some', Option.map_none'] at ihv ihr
    simp only [specTrimDictS, trimNoneDict, hv, hrest, ihv, ihr, Option.map_none']
  · intro k2 v rest v2 hv rest2 hrest ihv ihr
    rw [hv] at ihv
    rw [hrest] at ihr
    simp only [Option.map_some'] at ihv ihr
    simp only [specTrimDictS, trimNoneDict, hv, hrest, ihv, ihr, Option.map_some',
      trim_empty_keys_cons]
    cases hek : isEmptyKeyVal v2 <;> simp [hek]
  · rfl
  · intro d rest h ih
    rw [h] at ih
    simp only [specTrimDListS, trimDictList, h, ih, Option.map_none']
  · intro d rest rest2 hd hrest ihd ihr
    rw [hd] at ihd
    rw [hrest] at ihr
    simp only [Option.map_some'] at ihd
    simp only [specTrimDListS, trimDictList, hd, hrest, ihd, ihr, Option.map_none']
  · intro d rest rest2 hd l2 hrest ihd ihr
    rw [hd] at ihd
    rw [hrest] at ihr
    simp only [Option.map_some'] at ihd
    simp only [specTrimDListS, trimDictList, hd, hrest, ihd, ihr, Option.map_some']
  · intro t hne hnd
    cases t with
    | nil => exact absurd rfl hne
    | cons e es =>
      cases e with
      | vdict d => exact absurd rfl (hnd d es)
      | vstr s => rfl
      | vint n => rfl
      | vbool b => rfl
      | vnull => rfl
      | vlist l => rfl

/-- `_trim_None_strings` equals its map-then-trim unfolding. -/
theorem trim_None_strings_eq_map (d : List (List Char × Val)) :
    trim_None_strings d = (trimNoneDict d).map trim_empty_keys := by
  rw [trim_None_strings]
  cases h : trimNoneDict d <;> simp

theorem splitOnC_not_mem (sep : Char) (s : List Char) (h : sep ∉ s) :
    splitOnC sep s = [s] := by
  induction s with
  | nil => rfl
  | cons c cs ih =>
    have hc : c ≠ sep := fun he => h (he ▸ List.mem_cons_self c cs)
    have hcs : sep ∉ cs := fun hm => h (List.mem_cons_of_mem c hm)
    rw [splitOnC, if_neg hc, ih hcs]

theorem splitOnC_append (sep : Char) (a b : List Char) (ha : sep ∉ a) :
    splitOnC sep (a ++ sep :: b) = a :: splitOnC sep b := by
  induction a with
  | nil => simp [splitOnC]
  | cons c cs ih =>
    have hc : c ≠ sep := fun he => ha (he ▸ List.mem_cons_self c cs)
    have hcs : sep ∉ cs := fun hm => ha (List.mem_cons_of_mem c hm)
    rw [List.cons_append, splitOnC, if_neg hc, ih hcs]

theorem splitOnC_ne_nil (sep : Char) (s : List Char) : splitOnC sep s ≠ [] := by
  cases s with
  | nil => simp [splitOnC]
  | cons c cs =>
    rw [splitOnC]
    split
    · simp
    · cases h : splitOnC sep cs <;> simp

theorem splitOnC_join (sep : Char) (s : List Char) :
    List.intercalate [sep] (splitOnC sep s) = s := by
  induction s with
  | nil => simp [splitOnC, List.intercalate]
  | cons c cs ih =>
    rw [splitOnC]
    by_cases hc : c = sep
    · rw [if_pos hc, hc]
      cases h : splitOnC sep cs with
      | nil => exact absurd h (splitOnC_ne_nil sep cs)
      | cons p t =>
        rw [h] at ih
        simp only [List.intercalate] at ih ⊢
        simp only [List.map_cons, List.intersperse] at ih ⊢
        simp only [List.flatten] at ih ⊢
        simp [ih]
    · rw [if_neg hc]
      cases h : splitOnC sep cs with
      | nil => exact absurd h (splitOnC_ne_nil sep cs)
      | cons p t =>
        rw [h] at ih
        cases t with
        | nil => simpa [List.intercalate] using ih
        | cons q t2 =>
          simp only [List.intercalate, List.map_cons, List.intersperse,
            List.flatten] at ih ⊢
          simpa using ih

theorem mem_splitOnC_not_mem (sep : Char) (s : List Char) :
    ∀ p ∈ splitOnC sep s, sep ∉ p := by
  induction s with
  | nil =>
    intro p hp
    simp [splitOnC] at hp
    simp [hp]
  | cons c cs ih =>
    intro p hp
    rw [splitOnC] at hp
    by_cases hc : c = sep
    · rw [if_pos hc] at hp
      rcases List.mem_cons.mp hp with h1 | h1
      · simp [h1]
      · exact ih p h1
    · rw [if_neg hc] at hp
      cases h : splitOnC sep cs with
      | nil => exact absurd h (splitOnC_ne_nil sep cs)
      | cons q t =>
        rw [h] at hp
        rcases List.mem_cons.mp hp with h1 | h1
        · subst h1
          intro hm
          rcases List.mem_cons.mp hm with h2 | h2
          · exact hc h2.symm
          · exact ih q (h ▸ List.mem_cons_self q t) h2
        · exact ih p (h ▸ List.mem_cons_of_mem q h1)

theorem ccdPairs_mem_of (ro : List MetaRec) (m om : MetaRec)
    (hsub : [m, om].Sublist ro) (hmd : mutualDep m om = true) :
    (m.name, om.name) ∈ ccdPairs ro := by
  induction ro with
  | nil => nomatch hsub
  | cons x rest ih =>
    cases hsub with
    | cons _ h2 =>
      rw [ccdPairs]
      exact List.mem_append_right _ (ih h2)
    | cons₂ _ h2 =>
      rw [ccdPairs]
      apply List.mem_append_left
      exact List.mem_map.mpr
        ⟨om, List.mem_filter.mpr ⟨List.singleton_sublist.mp h2, hmd⟩, rfl⟩

theorem ccdPairs_ne_nil (ro : List MetaRec) :
    ccdPairs ro ≠ [] ↔
      ∃ m om, [m, om].Sublist ro ∧ mutualDep m om = true := by
  constructor
  · intro h
    induction ro with
    | nil => exact absurd rfl h
    | cons x rest ih =>
      rw [ccdPairs] at h
      cases hfl : rest.filter (fun om => mutualDep x om) with
      | cons om t =>
        have hmem : om ∈ rest.filter (fun om => mutualDep x om) := by
          rw [hfl]; exact List.mem_cons_self om t
        have h2 := List.mem_filter.mp hmem
        exact ⟨x, om,
          List.Sublist.cons₂ x (List.singleton_sublist.mpr h2.1), h2.2⟩
      | nil =>
        rw [hfl] at h
        simp only [List.map_nil, List.nil_append] at h
        obtain ⟨m, om, hsub, hmd⟩ := ih h
        exact ⟨m, om, hsub.cons x, hmd⟩
  · rintro ⟨m, om, hsub, hmd⟩ h
    exact absurd (ccdPairs_mem_of ro m om hsub hmd) (by simp [h])

theorem emhBadDep_iff (m : MetaRec) (dep : List Char) (hn : ' ' ∉ m.name) :
    emhBadDep m dep = true ↔
      ∃ v h, splitSpace dep = [m.name, v, h] ∧ h ≠ m.build_id := by
  constructor
  · intro hb
    rw [emhBadDep] at hb
    simp only [Bool.and_eq_true, beq_iff_eq, bne_iff_ne] at hb
    obtain ⟨⟨hpre, hlen⟩, hlast⟩ := hb
    obtain ⟨t, ht⟩ := List.isPrefixOf_iff_prefix.mp hpre
    have hdep : dep = m.name ++ ' ' :: t := by
      rw [← ht]; simp
    rw [hdep, splitSpace, splitOnC_append ' ' m.name t hn] at hlen ⊢
    rw [List.length_cons] at hlen
    match hsp : splitOnC ' ' t with
    | [v, h] =>
      refine ⟨v, h, rfl, ?_⟩
      rw [hdep, splitSpace, splitOnC_append ' ' m.name t hn, hsp] at hlast
      simpa using hlast
    | [] => rw [hsp] at hlen; simp at hlen
    | [v] => rw [hsp] at hlen; simp at hlen
    | v :: h :: w :: r => rw [hsp] at hlen; simp at hlen
  · rintro ⟨v, h, hsp, hne⟩
    have hv : ' ' ∉ v :=
      mem_splitOnC_not_mem ' ' dep v (by rw [splitSpace] at hsp; rw [hsp]; simp)
    have hh : ' ' ∉ h :=
      mem_splitOnC_not_mem ' ' dep h (by rw [splitSpace] at hsp; rw [hsp]; simp)
    have hdep : dep = m.name ++ ' ' :: (v ++ ' ' :: h) := by
      have := splitOnC_join ' ' dep
      rw [splitSpace] at hsp
      rw [hsp] at this
      simp only [List.intercalate, List.map_cons, List.map_nil,
        List.intersperse, List.flatten, List.append_nil] at this
      simpa using this.symm
    rw [emhBadDep]
    simp only [Bool.and_eq_true, beq_iff_eq, bne_iff_ne]
    refine ⟨⟨?_, by rw [hsp]; rfl⟩, ?_⟩
    · exact List.isPrefixOf_iff_prefix.mpr ⟨v ++ ' ' :: h, by rw [hdep]; simp⟩
    · rw [hsp]
      simpa using hne

theorem mem_emhProblemos (oms : List MetaRec) (pr : List Char × List Char) :
    pr ∈ emhProblemos oms ↔
      ∃ i j : Fin oms.length, (i : Nat) ≠ (j : Nat) ∧
        pr = ((oms.get i).name, (oms.get j).name) ∧
        ∃ dep ∈ emhDeps (oms.get j), emhBadDep (oms.get i) dep = true := by
  rw [emhProblemos]
  constructor
  · intro h
    obtain ⟨p, hp, h2⟩ := List.mem_flatMap.mp h
    obtain ⟨q, hq, h3⟩ := List.mem_flatMap.mp h2
    rcases p with ⟨i, m⟩
    rcases q with ⟨j, om⟩
    by_cases hne : i ≠ j
    · rw [if_pos (by simpa using hne)] at h3
      obtain ⟨dep, hdep, heq⟩ := List.mem_map.mp h3
      obtain ⟨hi, hgi⟩ :=
        List.getElem?_eq_some.mp (List.mk_mem_enum_iff_getElem?.mp hp)
      obtain ⟨hj, hgj⟩ :=
        List.getElem?_eq_some.mp (List.mk_mem_enum_iff_getElem?.mp hq)
      have hdep2 := List.mem_filter.mp hdep
      refine ⟨⟨i, hi⟩, ⟨j, hj⟩, hne, ?_, dep, ?_, ?_⟩
      · simp only [List.get_eq_getElem, hgi, hgj]
        exact heq.symm
      · simp only [List.get_eq_getElem, hgj]
        exact hdep2.1
      · simp only [List.get_eq_getElem, hgi]
        exact hdep2.2
    · rw [if_neg (by simpa using hne)] at h3
      exact absurd h3 (List.not_mem_nil pr)
  · rintro ⟨i, j, hij, rfl, dep, hdep, hbad⟩
    apply List.mem_flatMap.mpr
    refine ⟨((i : Nat), oms.get i), ?_, ?_⟩
    · exact List.mk_mem_enum_iff_getElem?.mpr
        (by simp [List.get_eq_getElem])
    · apply List.mem_flatMap.mpr
      refine ⟨((j : Nat), oms.get j), ?_, ?_⟩
      · exact List.mk_mem_enum_iff_getElem?.mpr
          (by simp [List.get_eq_getElem])
      · rw [if_pos (by simpa using hij)]
        exact List.mem_map.mpr ⟨dep, List.mem_filter.mpr ⟨hdep, hbad⟩, rfl⟩

theorem infix_reprItems (l : List (List Char)) (v : List Char) (hv : v ∈ l) :
    v.IsInfix (reprItems l) := by
  induction l with
  | nil => exact absurd hv (List.not_mem_nil v)
  | cons s rest ih =>
    rcases List.mem_cons.mp hv with h1 | h1
    · subst h1
      cases rest with
      | nil => exact ⟨['\''], ['\''], by simp [reprItems]⟩
      | cons t r2 => exact ⟨['\''], '\'' :: ',' :: ' ' :: reprItems (t :: r2), by
          simp [reprItems]⟩
    · cases rest with
      | nil => exact absurd h1 (List.not_mem_nil v)
      | cons t r2 =>
        obtain ⟨a, b, hab⟩ := ih h1
        exact ⟨'\'' :: (s ++ ['\'', ',', ' ']) ++ a, b, by
          rw [reprItems]; simp [← hab]⟩

theorem infix_reprStrList (l : List (List Char)) (v : List Char) (hv : v ∈ l) :
    v.IsInfix (reprStrList l) := by
  obtain ⟨a, b, hab⟩ := infix_reprItems l v hv
  exact ⟨'[' :: a, b ++ [']'], by rw [reprStrList]; simp [← hab]⟩

/-- The value `undefined_jinja_vars` holds when the loop tests the exit
condition for the j-th time: `()` initially, then the previous parse's
recording. -/
def uvSeq (oracle : Nat → List (List Char)) : Nat → List (List Char)
  | 0 => []
  | i + 1 => oracle i

theorem purLoop_reaches (oracle : Nat → List (List Char)) (n : Nat)
    (hall : ∀ i < n, eqAsSet (uvSeq oracle i) (oracle i) = false)
    (hn : eqAsSet (uvSeq oracle n) (oracle n) = true) :
    ∀ d j, j ≤ n → n - j = d → ∀ fuel, d < fuel →
      purLoop oracle fuel (uvSeq oracle j) (oracle j) (j + 1) =
        some (uvSeq oracle n, oracle n, n + 1) := by
  intro d
  induction d with
  | zero =>
    intro j hj hd fuel hf
    have hjn : j = n := by omega
    subst hjn
    cases fuel with
    | zero => omega
    | succ f => rw [purLoop, if_pos hn]
  | succ d ih =>
    intro j hj hd fuel hf
    have hjn : j < n := by omega
    cases fuel with
    | zero => omega
    | succ f =>
      rw [purLoop, if_neg (by rw [hall j hjn]; simp)]
      have := ih (j + 1) (by omega) (by omega) f (by omega)
      simpa [uvSeq] using this

/-- The four hash-exempt build keys, removed in order. -/
def eraseFour (b : List (List Char × Val)) : List (List Char × Val) :=
  dErase (dErase (dErase (dErase b KNUMBER) KSTRING) KNOARCH) KNOARCHPY

theorem dErase_of_not_mem (d : List (List Char × Val)) (k : List Char)
    (h : dMem d k = false) : dErase d k = d := by
  induction d with
  | nil => rfl
  | cons kv rest ih =>
    rw [dMem, dGet] at h
    by_cases hk : kv.1 = k
    · rw [if_pos hk] at h
      simp at h
    · rw [if_neg hk] at h
      rw [dErase, List.filter_cons]
      have h2 : dErase rest k = rest := ih (by rw [dMem]; exact h)
      rw [dErase] at h2
      rw [if_pos (by simp [hk])]
      rw [h2]

theorem delIfHasKey_vdict (b : List (List Char × Val)) (k : List Char) :
    delIfHasKey (.vdict b) k = some (.vdict (dErase b k)) := by
  rw [delIfHasKey, vContains]
  cases h : dMem b k with
  | true => rw [vDelKey]
  | false => rw [dErase_of_not_mem b k h]

theorem ghcBuildTrim_vdict (b : List (List Char × Val)) :
    ghcBuildTrim (.vdict b) = some (.vdict (eraseFour b)) := by
  rw [ghcBuildTrim]
  simp only [delIfHasKey_vdict]
  rw [eraseFour]

theorem dGet_cons_self (k : List Char) (a : Val) (t : List (List Char × Val)) :
    dGet ((k, a) :: t) k = some a := by
  rw [dGet, if_pos rfl]

theorem dGetD_rb (r2 bv : Val) (tl : List (List Char × Val)) (d : Val) :
    dGetD ((KREQS, r2) :: (KBUILD, bv) :: tl) KBUILD d = bv := by
  rw [dGetD, dGet, if_neg (by decide : ¬ KREQS = KBUILD), dGet, if_pos rfl]
  rfl

theorem dSet_rb (r2 bv x : Val) (tl : List (List Char × Val)) :
    dSet ((KREQS, r2) :: (KBUILD, bv) :: tl) KBUILD x =
      (KREQS, r2) :: (KBUILD, x) :: tl := by
  rw [dSet, if_neg (by decide : ¬ KREQS = KBUILD), dSet, if_pos rfl]

theorem dSet_extra (r2 bv x : Val) (tl : List (List Char × Val)) :
    dSet ((KREQS, r2) :: (KBUILD, bv) :: tl) KEXTRA x =
      (KREQS, r2) :: (KBUILD, bv) :: dSet tl KEXTRA x := by
  rw [dSet, if_neg (by decide : ¬ KREQS = KEXTRA), dSet,
    if_neg (by decide : ¬ KBUILD = KEXTRA)]

theorem composite1_shape (rv sv bv : Val) :
    (if vTruthy sv then dSet [(KREQS, rv), (KBUILD, bv)] KSOURCE sv
     else [(KREQS, rv), (KBUILD, bv)]) =
      (KREQS, rv) :: (KBUILD, bv) ::
        (if vTruthy sv then [(KSOURCE, sv)] else []) := by
  by_cases h : vTruthy sv
  · rw [if_pos h, if_pos h, dSet, if_neg (by decide : ¬ KREQS = KSOURCE),
      dSet, if_neg (by decide : ¬ KBUILD = KSOURCE)]
    rfl
  · rw [if_neg h, if_neg h]

theorem get_hash_contents_build_indep (iv : List (List Char))
    (m1 m2 : List (List Char × Val)) (fps : List (List Char))
    (hreq : get_section m1 KREQS = get_section m2 KREQS)
    (hsrc : get_section m1 KSOURCE = get_section m2 KSOURCE)
    (hext : get_section m1 KEXTRA = get_section m2 KEXTRA)
    (b1 b2 : List (List Char × Val))
    (hb1 : get_section m1 KBUILD = .vdict b1)
    (hb2 : get_section m2 KBUILD = .vdict b2)
    (hb : eraseFour b1 = eraseFour b2) :
    get_hash_contents iv m1 fps = get_hash_contents iv m2 fps := by
  simp only [get_hash_contents]
  rw [hreq, hsrc, hext, hb1, hb2]
  generalize get_section m2 KREQS = rv
  generalize get_section m2 KSOURCE = sv
  generalize get_section m2 KEXTRA = ev
  rw [composite1_shape rv sv (.vdict b1), composite1_shape rv sv (.vdict b2)]
  generalize (if vTruthy sv then [(KSOURCE, sv)] else []) = tl0
  have hgr : ∀ bv, dGetD ((KREQS, rv) :: (KBUILD, bv) :: tl0) KREQS (.vdict []) = rv :=
    fun bv => by rw [dGetD, dGet_cons_self]; rfl
  rw [hgr, hgr]
  cases hvg : vGetD rv KBUILD (Val.vlist []) with
  | none => rfl
  | some bq0 =>
  dsimp only
  cases hiv : (if iv.isEmpty then some bq0 else filterReqs iv bq0) with
  | none => rfl
  | some breqs =>
  dsimp only
  cases hsk : vSetKey rv KBUILD breqs with
  | none => rfl
  | some req2 =>
  dsimp only
  have hsr : ∀ bv, dSet ((KREQS, rv) :: (KBUILD, bv) :: tl0) KREQS req2 =
      (KREQS, req2) :: (KBUILD, bv) :: tl0 :=
    fun bv => by rw [dSet, if_pos rfl]
  rw [hsr, hsr]
  cases hvc : vContains ev KCTSF with
  | none => rfl
  | some hasC =>
  dsimp only
  cases hfl : ghcExtraFlag ev hasC with
  | none => rfl
  | some fq =>
  dsimp only
  cases fq with
  | none =>
    dsimp only
    simp only [dGetD_rb, ghcBuildTrim_vdict, hb, dSet_rb]
  | some flag =>
    dsimp only
    rw [dSet_extra, dSet_extra]
    simp only [dGetD_rb, ghcBuildTrim_vdict, hb, dSet_rb]

/-- Structural fuel twin of `replaceL`, for evaluating concrete inputs
in the kernel. -/
def replaceLF : Nat → List Char → List Char → List Char → List Char
  | 0, s, _, _ => s
  | _ + 1, [], _, _ => []
  | n + 1, c :: cs, pat, rep =>
    if pat ≠ [] ∧ pat.isPrefixOf (c :: cs) then
      rep ++ replaceLF n ((c :: cs).drop pat.length) pat rep
    else c :: replaceLF n cs pat rep

theorem replaceLF_eq (n : Nat) : ∀ s pat rep : List Char, s.length < n →
    replaceLF n s pat rep = replaceL s pat rep := by
  induction n with
  | zero => intro s pat rep h; omega
  | succ n ih =>
    intro s pat rep h
    cases s with
    | nil => rw [replaceLF, replaceL]
    | cons c cs =>
      by_cases hp : pat ≠ [] ∧ pat.isPrefixOf (c :: cs)
      · rw [replaceLF, if_pos hp, replaceL_cons_pos c cs pat rep hp,
          ih _ pat rep (by
            have hp1 : 0 < pat.length := List.length_pos.mpr hp.1
            simp only [List.length_drop, List.length_cons]
            simp only [List.length_cons] at h
            omega)]
      · rw [replaceLF, if_neg hp, replaceL_cons_neg c cs pat rep hp,
          ih cs pat rep (by simp only [List.length_cons] at h; omega)]

def replaceLT (s pat rep : List Char) : List Char :=
  replaceLF (s.length + 1) s pat rep

theorem replaceLT_eq (s pat rep : List Char) :
    replaceLT s pat rep = replaceL s pat rep :=
  replaceLF_eq (s.length + 1) s pat rep (by omega)

/-- Structural fuel twin of `occCount`. -/
def occCountF : Nat → List Char → List Char → Nat
  | 0, _, _ => 0
  | _ + 1, [], _ => 0
  | n + 1, c :: cs, pat =>
    if pat ≠ [] ∧ pat.isPrefixOf (c :: cs) then
      1 + occCountF n ((c :: cs).drop pat.length) pat
    else occCountF n cs pat

theorem occCountF_eq (n : Nat) : ∀ s pat : List Char, s.length < n →
    occCountF n s pat = occCount s pat := by
  induction n with
  | zero => intro s pat h; omega
  | succ n ih =>
    intro s pat h
    cases s with
    | nil => rw [occCountF, occCount]
    | cons c cs =>
      by_cases hp : pat ≠ [] ∧ pat.isPrefixOf (c :: cs)
      · rw [occCountF, if_pos hp, occCount_cons_pos c cs pat hp,
          ih _ pat (by
            have hp1 : 0 < pat.length := List.length_pos.mpr hp.1
            simp only [List.length_drop, List.length_cons]
            simp only [List.length_cons] at h
            omega)]
      · rw [occCountF, if_neg hp, occCount_cons_neg c cs pat hp,
          ih cs pat (by simp only [List.length_cons] at h; omega)]

def occCountT (s pat : List Char) : Nat := occCountF (s.length + 1) s pat

theorem occCountT_eq (s pat : List Char) : occCountT s pat = occCount s pat :=
  occCountF_eq (s.length + 1) s pat (by omega)

/-- Structural fuel twin of `runsL`. -/
def runsLF : Nat → List Char → List (List Char)
  | 0, _ => []
  | _ + 1, [] => []
  | n + 1, c :: cs =>
    if identc c then (c :: cs.takeWhile identc) :: runsLF n (cs.dropWhile identc)
    else runsLF n cs

theorem runsLF_eq (n : Nat) : ∀ s : List Char, s.length < n →
    runsLF n s = runsL s := by
  induction n with
  | zero => intro s h; omega
  | succ n ih =>
    intro s h
    cases s with
    | nil => rw [runsLF, runsL_nil]
    | cons c cs =>
      by_cases hc : identc c
      · rw [runsLF, if_pos hc, runsL_cons_pos c cs hc,
          ih _ (by
            have := (List.dropWhile_suffix (l := cs) identc).length_le
            simp only [List.length_cons] at h
            omega)]
      · rw [runsLF, if_neg hc, runsL_cons_neg c cs hc,
          ih cs (by simp only [List.length_cons] at h; omega)]

def runsLT (s : List Char) : List (List Char) := runsLF (s.length + 1) s

theorem runsLT_eq (s : List Char) : runsLT s = runsL s :=
  runsLF_eq (s.length + 1) s (by omega)

/-- Structural fuel twin of `tokenizeL`. -/
def tokenizeLF : Nat → List Char → Except Unit (List Tok)
  | 0, _ => .error ()
  | _ + 1, [] => .ok []
  | n + 1, c :: cs =>
    if identc c then
      match classifyRun (c :: cs.takeWhile identc) with
      | .error e => .error e
      | .ok t =>
        match tokenizeLF n (cs.dropWhile identc) with
        | .error e => .error e
        | .ok ts => .ok (t :: ts)
    else if c = ' ' ∨ c = '	' then tokenizeLF n cs
    else .error ()

theorem tokenizeLF_eq (n : Nat) : ∀ s : List Char, s.length < n →
    tokenizeLF n s = tokenizeL s := by
  induction n with
  | zero => intro s h; omega
  | succ n ih =>
    intro s h
    cases s with
    | nil => rw [tokenizeLF, tokenizeL]
    | cons c cs =>
      rw [tokenizeLF, tokenizeL]
      by_cases hc : identc c
      · simp only [hc, if_true]
        rw [ih (cs.dropWhile identc) (by
          have := (List.dropWhile_suffix (l := cs) identc).length_le
          simp only [List.length_cons] at h
          omega)]
      · simp only [hc, if_false]
        by_cases hsp : c = ' ' ∨ c = '	'
        · simp only [hsp, if_true]
          exact ih cs (by simp only [List.length_cons] at h; omega)
        · simp only [hsp, if_false]
          rfl

/-- Structural fuel twin of `parseAndT`. -/
def parseAndTF : Nat → List Tok → Except Unit (Expr × List Tok)
  | 0, _ => .error ()
  | n + 1, ts =>
    match parseNotT ts with
    | .error e => .error e
    | .ok (e1, .kand :: r2) =>
      match parseAndTF n r2 with
      | .error e => .error e
      | .ok (e2, r3) => .ok (.eand e1 e2, r3)
    | .ok (e1, r) => .ok (e1, r)

theorem parseAndTF_eq (n : Nat) : ∀ ts : List Tok, ts.length < n →
    parseAndTF n ts = parseAndT ts := by
  induction n with
  | zero => intro ts h; omega
  | succ n ih =>
    intro ts h
    rw [parseAndTF, parseAndT_unfold]
    cases hp : parseNotT ts with
    | error e => rfl
    | ok p =>
      obtain ⟨e1, r⟩ := p
      cases r with
      | nil => rfl
      | cons t r2 =>
        cases t with
        | kand =>
          have hc := parseNotT_consumes ts e1 (Tok.kand :: r2) hp
          simp only [List.length_cons] at hc
          dsimp only
          rw [ih r2 (by omega)]
        | kor => rfl
        | knot => rfl
        | lit v => rfl
        | name x => rfl

/-- Structural fuel twin of `parseOrT`. -/
def parseOrTF : Nat → List Tok → Except Unit (Expr × List Tok)
  | 0, _ => .error ()
  | n + 1, ts =>
    match parseAndTF (n + 1) ts with
    | .error e => .error e
    | .ok (e1, .kor :: r2) =>
      match parseOrTF n r2 with
      | .error e => .error e
      | .ok (e2, r3) => .ok (.eor e1 e2, r3)
    | .ok (e1, r) => .ok (e1, r)

theorem parseOrTF_eq (n : Nat) : ∀ ts : List Tok, ts.length < n →
    parseOrTF n ts = parseOrT ts := by
  induction n with
  | zero => intro ts h; omega
  | succ n ih =>
    intro ts h
    rw [parseOrTF, parseOrT_unfold, parseAndTF_eq (n + 1) ts h]
    cases hp : parseAndT ts with
    | error e => rfl
    | ok p =>
      obtain ⟨e1, r⟩ := p
      cases r with
      | nil => rfl
      | cons t r2 =>
        cases t with
        | kor =>
          have hc := parseAndT_consumes ts e1 (Tok.kor :: r2) hp
          simp only [List.length_cons] at hc
          dsimp only
          rw [ih r2 (by omega)]
        | kand => rfl
        | knot => rfl
        | lit v => rfl
        | name x => rfl

def parseToksT (ts : List Tok) : Except Unit Expr :=
  match parseOrTF (ts.length + 1) ts with
  | .error e => .error e
  | .ok (e, []) => .ok e
  | .ok (_, _ :: _) => .error ()

theorem parseToksT_eq (ts : List Tok) : parseToksT ts = parseToks ts := by
  rw [parseToksT, parseToks, parseOrTF_eq (ts.length + 1) ts (by omega)]

/-- Structural twin of `evalPy`, for concrete inputs. -/
def evalPyT (s : List Char) (env : NS) : Except PErr PyVal :=
  match tokenizeLF (s.length + 1) s with
  | .error _ => .error .syn
  | .ok ts =>
    match parseToksT ts with
    | .error _ => .error .syn
    | .ok e => evalE env e

theorem evalPyT_eq (s : List Char) (env : NS) : evalPyT s env = evalPy s env := by
  rw [evalPyT, evalPy, tokenizeLF_eq (s.length + 1) s (by omega)]
  simp only [parseToksT_eq]

theorem dGet_mem (d : List (List Char × Val)) (k : List Char) (v : Val)
    (h : dGet d k = some v) : (k, v) ∈ d := by
  induction d with
  | nil => exact absurd h (by simp [dGet])
  | cons kv rest ih =>
    rw [dGet] at h
    by_cases hk : kv.1 = k
    · rw [if_pos hk] at h
      cases h
      have : (k, kv.2) = kv := by
        cases kv
        simp at hk
        simp [hk]
      rw [this]
      exact List.mem_cons_self kv rest
    · rw [if_neg hk] at h
      exact List.mem_cons_of_mem kv (ih h)

theorem coerceBool_default (f : List Char) (v : Val)
    (h : dGet default_structs f = some v) : coerceBool v = v := by
  have hm := dGet_mem default_structs f v h
  fin_cases hm <;> rfl

/-- The set (as the sub-list of runs) of free undefined selector symbols:
name-classified identifier runs not bound in the namespace — the
"free symbols" of the spec's termination remark. -/
def undefinedNames (s : List Char) (env : NS) : List (List Char) :=
  (runsL s).filter (fun r => nameRunB r && (lookupNS env r).isNone)

/-
Claim theorems.  Each of the following theorems settles one claim of the
specification against the embedding above.
-/

/-- C1: `hash_dependencies` returns the same digest for any two versions
of the metadata document that differ only in the values (or presence) of
`build/number`, `build/string`, `build/noarch`, `build/noarch_python`,
with all other recipe content and auxiliary file bytes held fixed. -/
theorem C1_hash_invariance (hl : Nat) (iv : List (List Char))
    (m1 m2 : List (List Char × Val)) (fps : List (List Char))
    (fs : List (List Char × List Char)) (rp : Bool)
    (hreq : get_section m1 KREQS = get_section m2 KREQS)
    (hsrc : get_section m1 KSOURCE = get_section m2 KSOURCE)
    (hext : get_section m1 KEXTRA = get_section m2 KEXTRA)
    (b1 b2 : List (List Char × Val))
    (hb1 : get_section m1 KBUILD = .vdict b1)
    (hb2 : get_section m2 KBUILD = .vdict b2)
    (hb : eraseFour b1 = eraseFour b2) :
    hash_dependencies hl iv m1 fps fs rp = hash_dependencies hl iv m2 fps fs rp := by
  rw [hash_dependencies, hash_dependencies,
    get_hash_contents_build_indep iv m1 m2 fps hreq hsrc hext b1 b2 hb1 hb2 hb]

theorem C1_witness :
    get_section [(KBUILD, Val.vdict [(KNUMBER, Val.vint 1), (KSTRING, Val.vstr ['x'])])]
        KREQS
      = get_section [(KBUILD, Val.vdict [(KNOARCH, Val.vstr ['p'])])] KREQS ∧
    eraseFour [(KNUMBER, Val.vint 1), (KSTRING, Val.vstr ['x'])]
      = eraseFour [(KNOARCH, Val.vstr ['p'])] ∧
    hash_dependencies 7 [] [(KBUILD, Val.vdict [(KNUMBER, Val.vint 1), (KSTRING, Val.vstr ['x'])])] [] [] false
      = hash_dependencies 7 [] [(KBUILD, Val.vdict [(KNOARCH, Val.vstr ['p'])])] [] [] false :=
  ⟨rfl, rfl,
    C1_hash_invariance 7 [] _ _ [] [] false rfl rfl rfl _ _ rfl rfl rfl⟩

/-- C3 (amended): replacing an unknown symbol `x` by the literal `False`
preserves the result of `eval_selector` when `x` is an identifier run of
the selector classified as a name, unbound in the namespace, every other
name-run is bound, and no other run contains `x` as a substring (so the
textual replacement does not also rewrite other tokens). -/
theorem C3_substitution (s : List Char) (env : NS) (x : List Char)
    (hx : x ∈ runsL s) (hxname : nameRunB x = true)
    (hunb : lookupNS env x = none)
    (honly : ∀ y ∈ runsL s, nameRunB y = true → y ≠ x → lookupNS env y ≠ none)
    (hnosub : ∀ r ∈ runsL s, r ≠ x → occCount r x = 0) :
    eval_selector s env = eval_selector (replaceL s x FALSE) env :=
  eval_selector_subst s env x hx hxname hunb honly hnosub

theorem C3_counterexample :
    ['a'] ∈ runsL "ab and a".toList ∧
    nameRunB ['a'] = true ∧
    lookupNS [] ['a'] = none ∧
    eval_selector "ab and a".toList [] = .ok (.vbool false) ∧
    replaceL "ab and a".toList ['a'] FALSE = "Falseb Falsend False".toList ∧
    eval_selector "Falseb Falsend False".toList [] = .error () := by
  have hruns : runsL "ab and a".toList = [['a', 'b'], "and".toList, ['a']] := by
    rw [← runsLT_eq]; rfl
  refine ⟨by rw [hruns]; simp, by decide, rfl, ?_, by rw [← replaceLT_eq]; rfl, ?_⟩
  · rw [eval_selector_of_nameError "ab and a".toList [] "ab".toList
      (by rw [← evalPyT_eq]; rfl)]
    rw [show replaceL "ab and a".toList "ab".toList FALSE = "False and a".toList
      from by rw [← replaceLT_eq]; rfl]
    exact eval_selector_of_ok _ [] _ (by rw [← evalPyT_eq]; rfl)
  · exact eval_selector_of_syn _ [] (by rw [← evalPyT_eq]; rfl)

theorem C3_witness :
    "unix".toList ∈ runsL "win and unix".toList ∧
    nameRunB "unix".toList = true ∧
    lookupNS [("win".toList, PyVal.vbool true)] "unix".toList = none ∧
    (∀ y ∈ runsL "win and unix".toList, nameRunB y = true → y ≠ "unix".toList →
      lookupNS [("win".toList, PyVal.vbool true)] y ≠ none) ∧
    (∀ r ∈ runsL "win and unix".toList, r ≠ "unix".toList →
      occCount r "unix".toList = 0) ∧
    eval_selector "win and unix".toList [("win".toList, PyVal.vbool true)] =
      eval_selector (replaceL "win and unix".toList "unix".toList FALSE)
        [("win".toList, PyVal.vbool true)] := by
  have hruns : runsL "win and unix".toList
      = ["win".toList, "and".toList, "unix".toList] := by
    rw [← runsLT_eq]; rfl
  have hx : "unix".toList ∈ runsL "win and unix".toList := by rw [hruns]; simp
  have honly : ∀ y ∈ runsL "win and unix".toList, nameRunB y = true →
      y ≠ "unix".toList → lookupNS [("win".toList, PyVal.vbool true)] y ≠ none := by
    rw [hruns]; decide
  have hnosub : ∀ r ∈ runsL "win and unix".toList, r ≠ "unix".toList →
      occCount r "unix".toList = 0 := by
    rw [hruns]
    intro r hr hne
    fin_cases hr
    · rw [← occCountT_eq]; rfl
    · rw [← occCountT_eq]; rfl
    · exact absurd rfl hne
  exact ⟨hx, by decide, rfl, honly, hnosub,
    C3_substitution "win and unix".toList [("win".toList, PyVal.vbool true)]
      "unix".toList hx (by decide) rfl honly hnosub⟩

/-- C4 (amended): the degrade-to-false retry loop of `eval_selector`
terminates — some finite fuel completes the fuelled recursion for every
selector string and namespace.  (The claim's parenthetical mechanism,
that each retry strictly shrinks the set of free undefined symbols, is
refuted by `C4_counterexample`; termination instead follows from the
measure `muSel`.) -/
theorem C4_termination (s : List Char) (env : NS) :
    ∃ fuel : Nat, (eval_selectorF fuel s env).isSome = true :=
  ⟨muSel s + 1, eval_selectorF_isSome (muSel s + 1) s env (by omega)⟩

theorem C4_counterexample :
    evalPy "a and b".toList [] = .error (.nameError ['a']) ∧
    replaceL "a and b".toList ['a'] FALSE = "False Falsend b".toList ∧
    undefinedNames "a and b".toList [] = [['a'], ['b']] ∧
    undefinedNames "False Falsend b".toList [] = ["Falsend".toList, ['b']] ∧
    "Falsend".toList ∉ undefinedNames "a and b".toList [] ∧
    (undefinedNames "False Falsend b".toList []).length =
      (undefinedNames "a and b".toList []).length := by
  have h3 : undefinedNames "a and b".toList [] = [['a'], ['b']] := by
    rw [undefinedNames]
    rw [show runsL "a and b".toList = [['a'], "and".toList, ['b']]
      from by rw [← runsLT_eq]; rfl]
    rfl
  have h4 : undefinedNames "False Falsend b".toList []
      = ["Falsend".toList, ['b']] := by
    rw [undefinedNames]
    rw [show runsL "False Falsend b".toList = [FALSE, "Falsend".toList, ['b']]
      from by rw [← runsLT_eq]; rfl]
    rfl
  exact ⟨by rw [← evalPyT_eq]; rfl, by rw [← replaceLT_eq]; rfl, h3, h4,
    by rw [h3]; decide, by rw [h3, h4]; rfl⟩

/-- C5: `parse_until_resolved` loops until two successive recorded sets
of undefined jinja variables are equal as sets (a fixpoint, not mere
emptiness); at a non-empty fixpoint it aborts fatally with a message
naming every remaining undefined variable, and at an empty one it
performs exactly one final strict (`permit_undefined_jinja=False`)
re-parse before returning. -/
theorem C5_parse_until_resolved (oracle : Nat → List (List Char)) (n : Nat)
    (hall : ∀ i < n, eqAsSet (uvSeq oracle i) (oracle i) = false)
    (hn : eqAsSet (uvSeq oracle n) (oracle n) = true) :
    ((uvSeq oracle n).isEmpty = true →
      parse_until_resolved (n + 1) oracle =
        some ⟨List.replicate (n + 1) true ++ [false], none⟩) ∧
    ((uvSeq oracle n).isEmpty = false →
      ∃ msg, parse_until_resolved (n + 1) oracle =
          some ⟨List.replicate (n + 1) true, some msg⟩ ∧
        ∀ v ∈ oracle n, v.IsInfix msg) := by
  have hloop := purLoop_reaches oracle n hall hn n 0 (by omega) (by omega)
    (n + 1) (by omega)
  rw [show uvSeq oracle 0 = [] from rfl] at hloop
  simp only [Nat.zero_add] at hloop
  constructor
  · intro he
    rw [parse_until_resolved, hloop]
    dsimp only
    rw [if_pos he]
  · intro he
    refine ⟨"Undefined Jinja2 variables remain (".toList ++ reprStrList (oracle n)
      ++ ").  Please enable source downloading and try again.".toList, ?_, ?_⟩
    · rw [parse_until_resolved, hloop]
      dsimp only
      rw [if_neg (by rw [he]; exact Bool.false_ne_true)]
    · intro v hv
      obtain ⟨a, b, hab⟩ := infix_reprStrList (oracle n) v hv
      exact ⟨"Undefined Jinja2 variables remain (".toList ++ a,
        b ++ ").  Please enable source downloading and try again.".toList, by
          rw [← hab]; simp⟩

theorem C5_witness :
    (∀ i < 1, eqAsSet (uvSeq (fun _ => [['a']]) i) ((fun _ => [['a']]) i)
        = false) ∧
    eqAsSet (uvSeq (fun _ => [['a']]) 1) ((fun _ => [['a']]) 1) = true ∧
    (((uvSeq (fun _ => [['a']]) 1).isEmpty = true →
      parse_until_resolved 2 (fun _ => [['a']]) =
        some ⟨List.replicate 2 true ++ [false], none⟩) ∧
    ((uvSeq (fun _ => [['a']]) 1).isEmpty = false →
      ∃ msg, parse_until_resolved 2 (fun _ => [['a']]) =
          some ⟨List.replicate 2 true, some msg⟩ ∧
        ∀ v ∈ (fun _ : Nat => [['a']]) 1, v.IsInfix msg)) :=
  ⟨by decide, by decide, C5_parse_until_resolved _ 1 (by decide) (by decide)⟩

/-- C6: `check_circular_dependencies` raises exactly when some pair of
outputs (in listing order) is mutually dependent through the combined
host/build/run requirements, and the message lists each such pair as
`A <-> B`; with no mutually dependent pair (in particular on a pure
3-cycle) it returns silently. -/
theorem C6_circular (ro : List MetaRec) :
    ((∃ msg, check_circular_dependencies ro = some msg) ↔
      ∃ m om, [m, om].Sublist ro ∧ mutualDep m om = true) ∧
    (∀ m om msg, [m, om].Sublist ro → mutualDep m om = true →
      check_circular_dependencies ro = some msg →
      (m.name ++ " <-> ".toList ++ om.name).IsInfix msg) := by
  constructor
  · constructor
    · rintro ⟨msg, hm⟩
      rw [check_circular_dependencies] at hm
      cases hc : ccdPairs ro with
      | nil => rw [hc] at hm; exact absurd hm (by simp)
      | cons p ps =>
        exact (ccdPairs_ne_nil ro).mp (by rw [hc]; exact List.cons_ne_nil p ps)
    · rintro ⟨m, om, hsub, hmd⟩
      have hne := (ccdPairs_ne_nil ro).mpr ⟨m, om, hsub, hmd⟩
      rw [check_circular_dependencies]
      cases hc : ccdPairs ro with
      | nil => exact absurd hc hne
      | cons p ps => exact ⟨_, rfl⟩
  · intro m om msg hsub hmd hmsg
    have hmem := ccdPairs_mem_of ro m om hsub hmd
    rw [check_circular_dependencies] at hmsg
    cases hc : ccdPairs ro with
    | nil => rw [hc] at hmem; exact absurd hmem (List.not_mem_nil _)
    | cons p ps =>
      rw [hc] at hmsg hmem
      have hmsg2 : msg = "Circular dependencies in recipe: \n".toList
          ++ ((p :: ps).map ccdLine).flatten := by
        dsimp only at hmsg
        exact (Option.some.inj hmsg).symm
      have hinf : (ccdLine (m.name, om.name)).IsInfix
          (((p :: ps).map ccdLine).flatten) :=
        List.infix_of_mem_flatten (List.mem_map_of_mem ccdLine hmem)
      have hsub2 : (m.name ++ " <-> ".toList ++ om.name).IsInfix
          (ccdLine (m.name, om.name)) :=
        ⟨"    ".toList, ['\n'], by rw [ccdLine]; simp⟩
      obtain ⟨a, b, hab⟩ := hsub2.trans hinf
      subst hmsg2
      exact ⟨"Circular dependencies in recipe: \n".toList ++ a, b, by
        rw [← hab]; simp⟩

/-- C7: after finalization, `ensure_matching_hashes` raises exactly when
some ordered pair of distinct outputs (M, N) has a dep or run-export of N
that is a three-token spec whose first token is M's name and whose third
token differs from M's `build_id`; the message lists every such
(producer, consumer) pair.  Package names contain no space. -/
theorem C7_matching_hashes (oms : List MetaRec)
    (hns : ∀ m ∈ oms, ' ' ∉ m.name) :
    ((∃ msg, ensure_matching_hashes oms = some msg) ↔
      ∃ i j : Fin oms.length, (i : Nat) ≠ (j : Nat) ∧
        ∃ dep ∈ emhDeps (oms.get j), ∃ ver hsh,
          splitSpace dep = [(oms.get i).name, ver, hsh] ∧
          hsh ≠ (oms.get i).build_id) ∧
    (∀ (i j : Fin oms.length) msg, (i : Nat) ≠ (j : Nat) →
      (∃ dep ∈ emhDeps (oms.get j), ∃ ver hsh,
        splitSpace dep = [(oms.get i).name, ver, hsh] ∧
        hsh ≠ (oms.get i).build_id) →
      ensure_matching_hashes oms = some msg →
      (emhLine ((oms.get i).name, (oms.get j).name)).IsInfix msg) := by
  have hbr : ∀ (i : Fin oms.length) dep,
      emhBadDep (oms.get i) dep = true ↔
        ∃ ver hsh, splitSpace dep = [(oms.get i).name, ver, hsh] ∧
          hsh ≠ (oms.get i).build_id :=
    fun i dep => emhBadDep_iff (oms.get i) dep (hns _ (List.get_mem oms i.1 i.2))
  constructor
  · constructor
    · rintro ⟨msg, hm⟩
      rw [ensure_matching_hashes] at hm
      cases hp : emhProblemos oms with
      | nil => rw [hp] at hm; exact absurd hm (by simp)
      | cons p ps =>
        have hpm : p ∈ emhProblemos oms := by rw [hp]; exact List.mem_cons_self p ps
        obtain ⟨i, j, hij, hpr, dep, hdep, hbad⟩ :=
          (mem_emhProblemos oms p).mp hpm
        exact ⟨i, j, hij, dep, hdep, (hbr i dep).mp hbad⟩
    · rintro ⟨i, j, hij, dep, hdep, htok⟩
      have hmem : ((oms.get i).name, (oms.get j).name) ∈ emhProblemos oms :=
        (mem_emhProblemos oms _).mpr
          ⟨i, j, hij, rfl, dep, hdep, (hbr i dep).mpr htok⟩
      rw [ensure_matching_hashes]
      cases hp : emhProblemos oms with
      | nil => rw [hp] at hmem; exact absurd hmem (List.not_mem_nil _)
      | cons p ps => exact ⟨_, rfl⟩
  · intro i j msg hij hex hmsg
    obtain ⟨dep, hdep, htok⟩ := hex
    have hmem : ((oms.get i).name, (oms.get j).name) ∈ emhProblemos oms :=
      (mem_emhProblemos oms _).mpr
        ⟨i, j, hij, rfl, dep, hdep, (hbr i dep).mpr htok⟩
    rw [ensure_matching_hashes] at hmsg
    cases hp : emhProblemos oms with
    | nil => rw [hp] at hmem; exact absurd hmem (List.not_mem_nil _)
    | cons p ps =>
      rw [hp] at hmsg hmem
      have hmsg2 : msg = ("Mismatching hashes in recipe. Exact pins in dependencies "
          ++ "that contribute to the hash often cause this. Can you "
          ++ "change one or more exact pins to version bound constraints?\n"
          ++ "Involved packages were:\n").toList
          ++ ((p :: ps).map emhLine).flatten := by
        dsimp only at hmsg
        exact (Option.some.inj hmsg).symm
      have hinf := List.infix_of_mem_flatten
        (List.mem_map_of_mem emhLine hmem)
      obtain ⟨a, b, hab⟩ := hinf
      subst hmsg2
      exact ⟨("Mismatching hashes in recipe. Exact pins in dependencies "
          ++ "that contribute to the hash often cause this. Can you "
          ++ "change one or more exact pins to version bound constraints?\n"
          ++ "Involved packages were:\n").toList ++ a, b, by
        rw [← hab]; simp only [List.append_assoc]⟩

/-- A two-output instance for the C7 witness: `b` pins `a 1.0 h222`
while `a`'s build id is `h111`. -/
def emhW : List MetaRec :=
  [⟨"a".toList, [], .rlist [], "h111".toList⟩,
   ⟨"b".toList, [("run".toList, ["a 1.0 h222".toList])], .rlist [],
     "hbbb".toList⟩]

theorem C7_witness :
    (∀ m ∈ emhW, ' ' ∉ m.name) ∧
    (((∃ msg, ensure_matching_hashes emhW = some msg) ↔
      ∃ i j : Fin emhW.length, (i : Nat) ≠ (j : Nat) ∧
        ∃ dep ∈ emhDeps (emhW.get j), ∃ ver hsh,
          splitSpace dep = [(emhW.get i).name, ver, hsh] ∧
          hsh ≠ (emhW.get i).build_id) ∧
    (∀ (i j : Fin emhW.length) msg, (i : Nat) ≠ (j : Nat) →
      (∃ dep ∈ emhDeps (emhW.get j), ∃ ver hsh,
        splitSpace dep = [(emhW.get i).name, ver, hsh] ∧
        hsh ≠ (emhW.get i).build_id) →
      ensure_matching_hashes emhW = some msg →
      (emhLine ((emhW.get i).name, (emhW.get j).name)).IsInfix msg)) :=
  ⟨by decide, C7_matching_hashes emhW (by decide)⟩

/-- C8: evidence for the `toposort` divergence — a named output of
non-conda type is dropped from the result entirely (first conjunct: the
wheel output `b` is missing), while the pure conda dependency order
A before B before C is produced correctly (second conjunct). -/
theorem C8_nonconda_dropped :
    toposort [(⟨some "a".toList, none⟩, []),
              (⟨some "b".toList, some "wheel".toList⟩, ["a".toList])]
      = [⟨some "a".toList, none⟩] ∧
    toposort [(⟨some "a".toList, none⟩, []),
              (⟨some "b".toList, none⟩, ["a 1.0".toList]),
              (⟨some "c".toList, none⟩, ["b".toList])]
      = [⟨some "a".toList, none⟩, ⟨some "b".toList, none⟩,
         ⟨some "c".toList, none⟩] :=
  ⟨rfl, rfl⟩

/-- C9 (amended): the normalization pass removes exactly the string
values that contain the null-marker token `'None'` as a substring
(recursively through nested mappings and homogeneous lists), leaves
every other string value unchanged, and afterwards removes the mappings
and sequences that became empty: `_trim_None_strings` coincides with the
spec-worded `specTrimDictS`. -/
theorem C9_trim_matches_spec (d : List (List Char × Val)) :
    trim_None_strings d = specTrimDictS d := by
  rw [trim_None_strings_eq_map, specTrimDictS_eq]

theorem C9_counterexample :
    trim_None_strings [(['a'], Val.vstr "Nonexyz".toList)] = some [] ∧
    "Nonexyz".toList ≠ "None".toList :=
  ⟨rfl, by decide⟩

/-- C10: for a two-part `section/key` field over a dict section,
`get_value` coerces a stored string through the yaml-1.1 boolean word
sets (`trues`/`falses`, lowercased), returns a non-string stored value
unchanged, and falls back to the field's typed default (the `vnull`
Python `None` when the field has none) when the key is absent. -/
theorem C10_get_value (meta d : List (List Char × Val))
    (sec key : List Char) (hs : '/' ∉ sec) (hk : '/' ∉ key)
    (hd : get_section meta sec = .vdict d) :
    (∀ s, dGet d key = some (.vstr s) →
      get_value meta (sec ++ '/' :: key) none true =
        some (if trues.contains (strLower s) then .vbool true
              else if falses.contains (strLower s) then .vbool false
              else .vstr s)) ∧
    (∀ v, dGet d key = some v → (∀ s, v ≠ .vstr s) →
      get_value meta (sec ++ '/' :: key) none true = some v) ∧
    (dGet d key = none →
      get_value meta (sec ++ '/' :: key) none true =
        some ((dGet default_structs (sec ++ '/' :: key)).getD .vnull)) := by
  have hsplit : splitSlash (sec ++ '/' :: key) = [sec, key] := by
    rw [splitSlash, splitOnC_append '/' sec key hs,
      splitOnC_not_mem '/' key hk]
  have hgo : get_value meta (sec ++ '/' :: key) none true =
      valueFrom d key (if dMem default_structs (sec ++ '/' :: key) then
        dGet default_structs (sec ++ '/' :: key) else none) := by
    rw [get_value, hsplit]
    dsimp only
    rw [get_value_go]
    simp only [Option.isNone_none, Bool.and_true, Bool.true_and, hd]
  refine ⟨?_, ?_, ?_⟩
  · intro s hget
    rw [hgo, valueFrom, hget]
    rfl
  · intro v hget hnv
    rw [hgo, valueFrom, hget]
    cases v with
    | vstr s => exact absurd rfl (hnv s)
    | vint n => rfl
    | vbool b => rfl
    | vnull => rfl
    | vdict d2 => rfl
    | vlist l => rfl
  · intro hget
    rw [hgo, valueFrom, hget]
    cases hdm : dMem default_structs (sec ++ '/' :: key) with
    | false =>
      rw [if_neg (by decide : ¬ (false = true))]
      rw [show dGet default_structs (sec ++ '/' :: key) = none from
        Option.not_isSome_iff_eq_none.mp (by
          rw [show (dGet default_structs (sec ++ '/' :: key)).isSome
              = dMem default_structs (sec ++ '/' :: key) from rfl, hdm]
          simp)]
      rfl
    | true =>
      rw [if_pos rfl]
      obtain ⟨v, hv⟩ := Option.isSome_iff_exists.mp (by
        rw [show (dGet default_structs (sec ++ '/' :: key)).isSome
            = dMem default_structs (sec ++ '/' :: key) from rfl, hdm])
      rw [hv]
      simp only [Option.getD_some, Option.getD_none]
      rw [coerceBool_default (sec ++ '/' :: key) v hv]

theorem C10_witness :
    '/' ∉ "build".toList ∧ '/' ∉ "skip".toList ∧
    get_section [("build".toList,
        Val.vdict [("skip".toList, Val.vstr "Yes".toList)])] "build".toList
      = Val.vdict [("skip".toList, Val.vstr "Yes".toList)] ∧
    ((∀ s, dGet [("skip".toList, Val.vstr "Yes".toList)] "skip".toList
        = some (.vstr s) →
      get_value [("build".toList,
          Val.vdict [("skip".toList, Val.vstr "Yes".toList)])]
          ("build".toList ++ '/' :: "skip".toList) none true =
        some (if trues.contains (strLower s) then .vbool true
              else if falses.contains (strLower s) then .vbool false
              else .vstr s)) ∧
    (∀ v, dGet [("skip".toList, Val.vstr "Yes".toList)] "skip".toList = some v →
      (∀ s, v ≠ .vstr s) →
      get_value [("build".toList,
          Val.vdict [("skip".toList, Val.vstr "Yes".toList)])]
          ("build".toList ++ '/' :: "skip".toList) none true = some v) ∧
    ((dGet [("skip".toList, Val.vstr "Yes".toList)] "skip".toList = none) →
      get_value [("build".toList,
          Val.vdict [("skip".toList, Val.vstr "Yes".toList)])]
          ("build".toList ++ '/' :: "skip".toList) none true =
        some ((dGet default_structs
          ("build".toList ++ '/' :: "skip".toList)).getD .vnull))) :=
  ⟨by decide, by decide, rfl,
    C10_get_value [("build".toList,
        Val.vdict [("skip".toList, Val.vstr "Yes".toList)])]
      [("skip".toList, Val.vstr "Yes".toList)] "build".toList "skip".toList
      (by decide) (by decide) rfl⟩

end CondaBuild
